import Mathlib

/-!
Verification of the greaseweazle FM codec and format-description compiler
(`src/greaseweazle/codec/ibm/fm.py` and `src/greaseweazle/codec/formats.py`)
against its natural-language specification.  The Python source is embedded
shallowly: machine integers are `Nat`/`Int`, byte strings are `List Nat`,
bit arrays are a `Bits` structure (length plus value), fallible code
returns `Except`.
-/

set_option maxRecDepth 4000

namespace GW

/-! ### Area model

Modelled from the spec: the area record types (`IAM`, `IDAM`, `DAM`,
`Sector`) live in `greaseweazle/codec/ibm/mfm.py`, which is not part of the
shown sources (`fm.py` imports them).  Per spec §3, every area carries a
start/end offset in bit-cells and — except `IAM` — a checksum value
(0 = valid); `IDAM` additionally carries cylinder/head/sector-id/size-code,
`DAM` a mark byte and the payload bytes; `Sector` is an `IDAM`+`DAM` pair.
Equality is field-for-field ("the full area-for-area equality (including
payload bytes)", spec §4.4); a `Sector`'s own offsets span the pair and its
checksum is the bitwise OR of the two members' checksums (0 iff both valid,
matching `has_sec`/`nr_missing` treating `crc == 0` as the valid sector).
Offsets are `Int` because `delta` subtracts revolution boundaries.
-/

structure IAM where
  start : Int
  stop : Int
deriving DecidableEq, Repr

structure IDAM where
  start : Int
  stop : Int
  crc : Nat
  c : Nat
  h : Nat
  r : Nat
  n : Nat
deriving DecidableEq, Repr

structure DAM where
  start : Int
  stop : Int
  crc : Nat
  mark : Nat
  data : List Nat
deriving DecidableEq, Repr

structure Sector where
  start : Int
  stop : Int
  crc : Nat
  idam : IDAM
  dam : DAM
deriving DecidableEq, Repr

/-- Modelled from the spec: `Sector(idam, dam)` constructor of the missing
`mfm.py` — spans the pair, checksum is the OR of the members' checksums. -/
def mkSector (idam : IDAM) (dam : DAM) : Sector :=
  ⟨idam.start, dam.stop, idam.crc ||| dam.crc, idam, dam⟩

/-! ### Deduplication (`IBM_FM.decode_raw`, fm.py lines 143-158)

The decoded areas are merged into the per-track lists: a new area whose
start is within 1000 bit-cells of an already-listed area of the same kind
is a re-detection; for `Sector`s the listed detection is replaced exactly
when it is invalid (`crc != 0`) and the new one is valid (`crc == 0`).
-/

/-- fm.py lines 151-158, specialised to the `self.sectors` list: scan for
the first listed sector within 1000 bit-cells; replace it only when it is
invalid and the new detection is valid; append when nothing is close. -/
def dedupAdd : List Sector → Sector → List Sector
  | [], a => [a]
  | s :: t, a =>
      if (s.start - a.start).natAbs < 1000 then
        (if s.crc ≠ 0 ∧ a.crc = 0 then a :: t else s :: t)
      else s :: dedupAdd t a

/-- fm.py lines 151-158, specialised to the `self.iams` list: an `IAM` is
never replaced (the preference test requires a `Sector`), only dropped or
appended. -/
def dedupAddIam : List IAM → IAM → List IAM
  | [], a => [a]
  | s :: t, a =>
      if (s.start - a.start).natAbs < 1000 then s :: t
      else s :: dedupAddIam t a

/-! ### Formatted-track readback merge and `verify_track`
(`IBM_FM_Formatted`, fm.py lines 209-233 and 258-271)

`IBM_FM_Formatted.decode_raw` decodes the raw bitstream into the
`raw_iams`/`raw_sectors` lists (the `IBM_FM.decode_raw` machinery) and then
merges every raw sector with a valid ID field into the matching expected
sectors.  `verify_track` runs that merge into a scratch copy whose
checksums were reset to the sentinel `0xffff` and compares.
-/

/-- fm.py lines 219-228: fold one raw detection `r` into one expected
sector `s`.  When the ID fields match, the scratch ID checksum is cleared;
when additionally the raw data field is valid and the scratch one is not,
the data checksum, the combined checksum and the payload are taken from the
raw detection.  (The Python mutates `s.idam.crc` without touching the
combined `s.crc`; only the data branch clears `s.crc`.) -/
def mergeOne (r : Sector) (s : Sector) : Sector :=
  if s.idam.c = r.idam.c ∧ s.idam.h = r.idam.h ∧
     s.idam.r = r.idam.r ∧ s.idam.n = r.idam.n then
    let idam2 := { s.idam with crc := 0 }
    if r.dam.crc = 0 ∧ s.dam.crc ≠ 0 then
      { s with idam := idam2,
               dam := { s.dam with crc := 0, data := r.dam.data },
               crc := 0 }
    else { s with idam := idam2 }
  else s

/-- fm.py lines 215-228: raw detections whose ID field is corrupt are
skipped; otherwise every matching expected sector is updated. -/
def formattedMergeStep (secs : List Sector) (r : Sector) : List Sector :=
  if r.idam.crc ≠ 0 then secs else secs.map (mergeOne r)

/-- fm.py lines 214-233: merge all raw detections into the expected sector
list (the mismatch set only feeds a console message). -/
def formattedMerge (secs rawSecs : List Sector) : List Sector :=
  rawSecs.foldl formattedMergeStep secs

/-- fm.py lines 68-69: number of sectors still missing/invalid. -/
def nrMissing (l : List Sector) : Nat :=
  (l.filter (fun s => s.crc ≠ 0)).length

/-- fm.py lines 264-267: the scratch copy of one expected sector, checksums
reset to the sentinel `0xffff`. -/
def resetSector (s : Sector) : Sector :=
  mkSector { s.idam with crc := 0xffff } { s.dam with crc := 0xffff }

/-- fm.py lines 262-263: the scratch copy of the IAM list (plain copies). -/
def scratchIams (iams : List IAM) : List IAM := iams

/-- fm.py lines 259-268: the scratch sector list after decoding the
readback into it.  `rawSecs` stands for the deduplicated sector detections
that `IBM_FM.decode_raw` extracted from the readback bitstream. -/
def verifyScratchSectors (origSecs rawSecs : List Sector) : List Sector :=
  formattedMerge (origSecs.map resetSector) rawSecs

/-- fm.py lines 258-271: `verify_track`, factored over the decoded raw
sector detections.  Fails when any scratch sector is still missing,
otherwise compares the scratch sector list with the original. -/
def verifyTrackWith (origSecs rawSecs : List Sector) : Bool :=
  if nrMissing (verifyScratchSectors origSecs rawSecs) ≠ 0 then false
  else origSecs = verifyScratchSectors origSecs rawSecs

/-! ### Claim C3 — dedup merge preference -/

/-- C3: in `decode_raw` deduplication, for two Sector detections whose
starts differ by fewer than 1000 bit-cells where one has checksum 0 and the
other non-zero, the merged list retains the valid detection regardless of
encounter order, and a valid detection already listed is never replaced by
an invalid one. -/
theorem claim_C3_dedup_preference (a b : Sector)
    (hdist : (a.start - b.start).natAbs < 1000)
    (hA : a.crc = 0) (hB : b.crc ≠ 0) :
    dedupAdd (dedupAdd [] a) b = [a] ∧
    dedupAdd (dedupAdd [] b) a = [a] ∧
    (∀ (l : List Sector) (x s : Sector), s ∈ l → s.crc = 0 →
      s ∈ dedupAdd l x) := by
  refine ⟨?_, ?_, ?_⟩
  · simp [dedupAdd, hdist, hA]
  · have hd : (b.start - a.start).natAbs < 1000 := by omega
    simp [dedupAdd, hd, hA, hB]
  · intro l x
    induction l with
    | nil => intro s h; simp at h
    | cons y t ih =>
        intro s hs hcrc
        by_cases hd : (y.start - x.start).natAbs < 1000
        · by_cases hrepl : y.crc ≠ 0 ∧ x.crc = 0
          · rcases List.mem_cons.mp hs with h | h
            · exact absurd (h ▸ hcrc) hrepl.1
            · simp [dedupAdd, hd, hrepl, h]
          · simp only [dedupAdd, if_pos hd, if_neg hrepl]
            exact hs
        · rcases List.mem_cons.mp hs with h | h
          · simp [dedupAdd, hd, h]
          · simp [dedupAdd, hd, ih s h hcrc]

theorem claim_C3_witness :
    let a : Sector := ⟨100, 200, 0, ⟨100, 150, 0, 0, 0, 1, 0⟩,
                       ⟨160, 200, 0, 0xfb, [1, 2]⟩⟩
    let b : Sector := ⟨150, 250, 7, ⟨150, 200, 7, 0, 0, 1, 0⟩,
                       ⟨210, 250, 0, 0xfb, [3, 4]⟩⟩
    dedupAdd (dedupAdd [] a) b = [a] ∧
    dedupAdd (dedupAdd [] b) a = [a] ∧
    (∀ (l : List Sector) (x s : Sector), s ∈ l → s.crc = 0 →
      s ∈ dedupAdd l x) :=
  claim_C3_dedup_preference _ _ (by decide) (by decide) (by decide)

/-! ### Claim C5 — the `verify_track` contract -/

/-- C5: `verify_track` returns true iff, after decoding the readback into a
scratch copy whose checksums were reset to the sentinel `0xffff`, zero
sectors remain missing/invalid and every area of the track — IAMs and
Sectors, payload bytes included — equals the original area-for-area.  (The
scratch IAM list is a plain copy that decoding never touches, so its
equality with the original is definitional.) -/
theorem claim_C5_verify_track (origIams : List IAM)
    (origSecs rawSecs : List Sector) :
    verifyTrackWith origSecs rawSecs = true ↔
      (nrMissing (verifyScratchSectors origSecs rawSecs) = 0 ∧
       scratchIams origIams = origIams ∧
       verifyScratchSectors origSecs rawSecs = origSecs) := by
  unfold verifyTrackWith
  constructor
  · intro h
    by_cases hm : nrMissing (verifyScratchSectors origSecs rawSecs) = 0
    · refine ⟨hm, rfl, ?_⟩
      rw [if_neg (by simp [hm])] at h
      exact (of_decide_eq_true h).symm
    · rw [if_pos hm] at h
      exact absurd h (by simp)
  · rintro ⟨hm, -, he⟩
    rw [if_neg (by simp [hm])]
    exact decide_eq_true he.symm

/-! ### Revolution assignment (`IBM_FM.decode_raw`, fm.py lines 129-141)

After sorting the detected areas by absolute start offset, the decoder
walks the caller-supplied revolution-length list: `p` is the start boundary
of the current revolution, `n` the next boundary (`none` models the
`float('inf')` reached when the list is exhausted).  For each area, *if*
its start has passed `n`, the boundary pair advances by exactly one
revolution; the area's offsets are then reduced by `p`.  Here we record,
for each area start, the boundary `p` it is reduced by. -/

def revSplit (p : Nat) (n : Option Nat) (rest : List Nat) :
    List Nat → List Nat
  | [] => []
  | s :: ss =>
      match n with
      | none => p :: revSplit p none rest ss
      | some nv =>
          if s ≥ nv then
            match rest with
            | [] => nv :: revSplit nv none [] ss
            | r :: rs => nv :: revSplit nv (some (nv + r)) rs ss
          else p :: revSplit p (some nv) rest ss

/-- fm.py lines 131-140 for a non-empty revolution list: the boundary each
sorted area start is reduced by (`a.delta(p)`). -/
def revAssign (r0 : Nat) (rs : List Nat) (starts : List Nat) : List Nat :=
  revSplit 0 (some r0) rs starts

/-- The revolution start boundaries: partial sums of the revolution
lengths, starting at 0. -/
def boundaries (acc : Nat) : List Nat → List Nat
  | [] => [acc]
  | r :: rs => acc :: boundaries (acc + r) rs

/-- The spec-side rule of claim C7: the greatest listed boundary that is
less than or equal to the start offset. -/
def greatestLE : List Nat → Nat → Nat
  | [], _ => 0
  | b :: bs, s => if b ≤ s then max b (greatestLE bs s) else greatestLE bs s

/-- Decidable side condition under which the single-step advance of the
code agrees with the greatest-boundary rule: replaying the walk, any area
start that advances the boundary pair stays short of the boundary after
next, i.e. no area skips a whole revolution. -/
def noSkip (p : Nat) (n : Option Nat) (rest : List Nat) :
    List Nat → Bool
  | [] => true
  | s :: ss =>
      match n with
      | none => noSkip p none rest ss
      | some nv =>
          if s ≥ nv then
            match rest with
            | [] => noSkip nv none [] ss
            | r :: rs => s < nv + r && noSkip nv (some (nv + r)) rs ss
          else noSkip p (some nv) rest ss

/-- Sortedness of the area starts (the decoder sorts before the walk). -/
def sortedLE : List Nat → Bool
  | [] => true
  | [_] => true
  | a :: b :: t => a ≤ b && sortedLE (b :: t)

theorem revSplit_cons_eq (p nv : Nat) (rest : List Nat) (s : Nat)
    (ss : List Nat) :
    revSplit p (some nv) rest (s :: ss) =
      if s ≥ nv then
        (match rest with
         | [] => nv :: revSplit nv none [] ss
         | r :: rs => nv :: revSplit nv (some (nv + r)) rs ss)
      else p :: revSplit p (some nv) rest ss := rfl

theorem noSkip_cons_eq (p nv : Nat) (rest : List Nat) (s : Nat)
    (ss : List Nat) :
    noSkip p (some nv) rest (s :: ss) =
      if s ≥ nv then
        (match rest with
         | [] => noSkip nv none [] ss
         | r :: rs => s < nv + r && noSkip nv (some (nv + r)) rs ss)
      else noSkip p (some nv) rest ss := rfl

theorem greatestLE_nil (s : Nat) : greatestLE [] s = 0 := rfl

theorem greatestLE_cons (b : Nat) (bs : List Nat) (s : Nat) :
    greatestLE (b :: bs) s =
      if b ≤ s then max b (greatestLE bs s) else greatestLE bs s := rfl

theorem boundaries_nil (acc : Nat) : boundaries acc [] = [acc] := rfl

theorem boundaries_cons (acc r : Nat) (rs : List Nat) :
    boundaries acc (r :: rs) = acc :: boundaries (acc + r) rs := rfl

theorem revSplit_none : ∀ (ss : List Nat) (p : Nat) (rest : List Nat),
    revSplit p none rest ss = ss.map (fun _ => p) := by
  intro ss
  induction ss with
  | nil => intro p rest; rfl
  | cons s t ih => intro p rest; simpa [revSplit] using ih p rest

theorem sortedLE_cons {a : Nat} {t : List Nat}
    (h : sortedLE (a :: t) = true) :
    sortedLE t = true ∧ ∀ x ∈ t, a ≤ x := by
  induction t generalizing a with
  | nil => exact ⟨rfl, by simp⟩
  | cons b u ih =>
      have h2 : a ≤ b ∧ sortedLE (b :: u) = true := by
        simpa [sortedLE] using h
      obtain ⟨hrec, hall⟩ := ih h2.2
      refine ⟨h2.2, ?_⟩
      intro x hx
      rcases List.mem_cons.mp hx with hx | hx
      · omega
      · have := hall x hx
        omega

theorem boundaries_ge (acc : Nat) (l : List Nat) :
    ∀ b ∈ boundaries acc l, acc ≤ b := by
  induction l generalizing acc with
  | nil => intro b hb; simp [boundaries] at hb; omega
  | cons r rs ih =>
      intro b hb
      simp only [boundaries, List.mem_cons] at hb
      rcases hb with h | h
      · omega
      · exact le_trans (by omega) (ih (acc + r) b h)

theorem greatestLE_high : ∀ (l : List Nat) (s : Nat),
    (∀ b ∈ l, s < b) → greatestLE l s = 0 := by
  intro l
  induction l with
  | nil => intro s _; rfl
  | cons b bs ih =>
      intro s h
      have hb : s < b := h b (by simp)
      unfold greatestLE
      rw [if_neg (by omega)]
      exact ih s (fun x hx => h x (List.mem_cons_of_mem _ hx))

theorem greatestLE_cons_le {p b : Nat} (bs : List Nat) (s : Nat)
    (hpb : p ≤ b) (hbs : b ≤ s) :
    greatestLE (p :: b :: bs) s = greatestLE (b :: bs) s := by
  have hps : p ≤ s := le_trans hpb hbs
  rw [greatestLE_cons, if_pos hps, greatestLE_cons, if_pos hbs]
  omega

/-- Key invariant: starting from boundary `p` with next boundary `nv` and
remaining lengths `rest`, if the starts are sorted, all at least `p`, and
the walk never skips a revolution, then every start is reduced by the
greatest remaining boundary that does not exceed it. -/
theorem revSplit_gb : ∀ (starts : List Nat) (p nv : Nat) (rest : List Nat),
    sortedLE starts = true → (∀ s ∈ starts, p ≤ s) → p ≤ nv →
    noSkip p (some nv) rest starts = true →
    revSplit p (some nv) rest starts =
      starts.map (greatestLE (p :: boundaries nv rest)) := by
  intro starts
  induction starts with
  | nil => intro p nv rest _ _ _ _; rfl
  | cons s ss ih =>
      intro p nv rest hsort hge hpn hns
      have hps : p ≤ s := hge s (by simp)
      obtain ⟨hsort2, hgeS⟩ := sortedLE_cons hsort
      by_cases hadv : nv ≤ s
      · cases rest with
        | nil =>
            rw [noSkip_cons_eq, if_pos hadv] at hns
            rw [revSplit_cons_eq, if_pos hadv]
            show nv :: revSplit nv none [] ss = _
            rw [revSplit_none, List.map_cons]
            have hhead : greatestLE (p :: boundaries nv []) s = nv := by
              rw [boundaries_nil, greatestLE_cons, if_pos hps,
                greatestLE_cons, if_pos hadv, greatestLE_nil]
              omega
            rw [hhead]
            congr 1
            apply List.map_congr_left
            intro x hx
            have hsx : s ≤ x := hgeS x hx
            rw [boundaries_nil, greatestLE_cons, if_pos (by omega),
              greatestLE_cons, if_pos (by omega), greatestLE_nil]
            omega
        | cons r rs =>
            rw [noSkip_cons_eq, if_pos hadv, Bool.and_eq_true,
              decide_eq_true_eq] at hns
            obtain ⟨hlt, hns2⟩ := hns
            rw [revSplit_cons_eq, if_pos hadv]
            show nv :: revSplit nv (some (nv + r)) rs ss = _
            rw [ih nv (nv + r) rs hsort2
              (fun x hx => le_trans hadv (hgeS x hx)) (by omega) hns2]
            rw [List.map_cons]
            have hhead : greatestLE (p :: boundaries nv (r :: rs)) s = nv := by
              rw [boundaries_cons, greatestLE_cons, if_pos hps,
                greatestLE_cons, if_pos hadv]
              rw [greatestLE_high _ _ (fun b hb => by
                have := boundaries_ge (nv + r) rs b hb; omega)]
              omega
            rw [hhead]
            congr 1
            apply List.map_congr_left
            intro x hx
            have hsx : s ≤ x := hgeS x hx
            rw [boundaries_cons]
            exact (greatestLE_cons_le _ _ hpn (by omega)).symm
      · rw [noSkip_cons_eq, if_neg (by omega)] at hns
        rw [revSplit_cons_eq, if_neg (by omega)]
        rw [ih p nv rest hsort2 (fun x hx => le_trans hps (hgeS x hx)) hpn hns]
        rw [List.map_cons]
        have hhead : greatestLE (p :: boundaries nv rest) s = p := by
          rw [greatestLE_cons, if_pos hps]
          rw [greatestLE_high _ _ (fun b hb => by
            have := boundaries_ge nv rest b hb; omega)]
          omega
        rw [hhead]

/-! ### Claim C7 — revolution assignment rule -/

/-- C7 counterexample: with revolution lengths `[100, 100, 100]` and sorted
area starts `[0, 250]`, the code reduces the second area by boundary 100,
but the greatest boundary `≤ 250` is 200: an area arriving more than one
whole revolution after the previous area is assigned to an earlier
revolution, refuting the claim as stated. -/
theorem claim_C7_cex :
    revAssign 100 [100, 100] [0, 250] = [0, 100] ∧
    [0, 250].map (greatestLE (boundaries 0 [100, 100, 100])) = [0, 200] ∧
    revAssign 100 [100, 100] [0, 250] ≠
      [0, 250].map (greatestLE (boundaries 0 [100, 100, 100])) :=
  ⟨by decide, by decide, by decide⟩

/-- C7 amended: each area advances the revolution boundary by at most one
step, so the greatest-boundary rule holds exactly for inputs where no
(sorted) area start skips a whole revolution relative to the walk
(decidable check `noSkip`); under that proviso every area is reduced by the
greatest caller-supplied boundary `≤` its start. -/
theorem claim_C7_amended (r0 : Nat) (rs starts : List Nat)
    (hsort : sortedLE starts = true)
    (hns : noSkip 0 (some r0) rs starts = true) :
    revAssign r0 rs starts =
      starts.map (greatestLE (boundaries 0 (r0 :: rs))) := by
  unfold revAssign
  rw [revSplit_gb starts 0 r0 rs hsort (fun s _ => Nat.zero_le s)
    (Nat.zero_le r0) hns]
  simp only [boundaries, Nat.zero_add]

theorem claim_C7_amended_witness :
    sortedLE [10, 150, 220] = true ∧
    noSkip 0 (some 100) [100] [10, 150, 220] = true ∧
    revAssign 100 [100] [10, 150, 220] =
      [10, 150, 220].map (greatestLE (boundaries 0 [100, 100])) :=
  ⟨by decide, by decide,
    claim_C7_amended 100 [100] [10, 150, 220] (by decide) (by decide)⟩

/-! ### Sector-slot assignment (`IBM_FM_Formatted.construct_sectors`,
fm.py lines 273-283)

The logical-sector map in rotational order: `sec_map` starts all `-1`
(free); the start slot is `(cyl*cskew + head*hskew) % nsec`; each logical
sector `i` is placed in the next free slot scanning circularly from the
current position, which then advances by the interleave factor. -/

/-- Occurrence count of a value in the slot map. -/
def cnt (x : Int) : List Int → Nat
  | [] => 0
  | y :: t => (if y = x then 1 else 0) + cnt x t

/-- fm.py lines 280-281: the `while sec_map[pos] != -1` scan, with explicit
fuel (one full circle suffices whenever a free slot exists). -/
def findFree (m : List Int) : Nat → Nat → Nat
  | pos, 0 => pos
  | pos, fuel + 1 =>
      if m.getD pos 0 = -1 then pos
      else findFree m ((pos + 1) % m.length) fuel

/-- fm.py lines 279-283: place each logical sector id of `is0` in turn. -/
def csLoop (n il : Nat) : List Nat → Nat → List Int → List Int
  | [], _, m => m
  | i :: is0, pos, m =>
      csLoop n il is0 ((findFree m pos n + il) % n)
        (m.set (findFree m pos n) ((i : Int)))

/-- fm.py lines 276-283: the finished rotational slot map. -/
def constructSecMap (nsec cyl head interleave cskew hskew : Nat) :
    List Int :=
  let pos := if nsec ≠ 0 then (cyl * cskew + head * hskew) % nsec else 0
  csLoop nsec interleave (List.range nsec) pos
    (List.replicate nsec (-1))

theorem cnt_replicate (n : Nat) : cnt (-1) (List.replicate n (-1)) = n := by
  induction n with
  | zero => rfl
  | succ k ih =>
      rw [List.replicate_succ]
      show (if (-1 : Int) = -1 then 1 else 0) +
        cnt (-1) (List.replicate k (-1)) = k + 1
      rw [ih, if_pos rfl]
      omega

theorem cnt_replicate_nonneg (n : Nat) (j : Nat) :
    cnt ((j : Int)) (List.replicate n (-1)) = 0 := by
  induction n with
  | zero => rfl
  | succ k ih =>
      rw [List.replicate_succ]
      show (if (-1 : Int) = ((j : Int)) then 1 else 0) +
        cnt ((j : Int)) (List.replicate k (-1)) = 0
      have hne : (-1 : Int) ≠ ((j : Int)) := by omega
      rw [ih, if_neg hne]

theorem cnt_set (l : List Int) (p : Nat) (x y : Int) (hp : p < l.length) :
    cnt y (l.set p x) + (if l.getD p 0 = y then 1 else 0) =
      cnt y l + (if x = y then 1 else 0) := by
  induction l generalizing p with
  | nil => simp at hp
  | cons a t ih =>
      cases p with
      | zero => simp [cnt]; omega
      | succ q =>
          have hq : q < t.length := by simpa using hp
          have := ih q hq
          simp only [List.set, cnt, List.getD, List.get?]
          simp only [List.set, cnt, List.getD] at this
          omega

theorem cnt_pos_exists (x : Int) (l : List Int) (h : 0 < cnt x l) :
    ∃ j < l.length, l.getD j 0 = x := by
  induction l with
  | nil => simp [cnt] at h
  | cons a t ih =>
      by_cases ha : a = x
      · exact ⟨0, by simp, by simpa using ha⟩
      · have h2 : 0 < cnt x t := by
          simp only [cnt, if_neg ha] at h
          omega
        obtain ⟨j, hj, hg⟩ := ih h2
        exact ⟨j + 1, by simpa using hj, by simpa using hg⟩

theorem findFree_spec (m : List Int) : ∀ (fuel pos : Nat),
    pos < m.length →
    (∃ k < fuel, m.getD ((pos + k) % m.length) 0 = -1) →
    findFree m pos fuel < m.length ∧ m.getD (findFree m pos fuel) 0 = -1 := by
  intro fuel
  induction fuel with
  | zero =>
      intro pos _ hk
      obtain ⟨k, hk0, _⟩ := hk
      omega
  | succ f ih =>
      intro pos hpos hk
      by_cases hfree : m.getD pos 0 = -1
      · simp only [findFree, if_pos hfree]
        exact ⟨hpos, hfree⟩
      · simp only [findFree, if_neg hfree]
        have hlen : 0 < m.length := by omega
        apply ih ((pos + 1) % m.length) (Nat.mod_lt _ hlen)
        obtain ⟨k, hk1, hk2⟩ := hk
        have hk0 : k ≠ 0 := by
          intro h0
          rw [h0, Nat.add_zero, Nat.mod_eq_of_lt hpos] at hk2
          exact hfree hk2
        refine ⟨k - 1, by omega, ?_⟩
        rw [Nat.mod_add_mod]
        have : pos + 1 + (k - 1) = pos + k := by omega
        rw [this]
        exact hk2

/-- Invariant-carrying induction for `csLoop`: the remaining ids `is0` are
distinct and unplaced, the free count matches the remaining work, every
id not remaining and below `n` is placed exactly once.  On exit every id
below `n` is placed exactly once. -/
theorem csLoop_inv (n il : Nat) :
    ∀ (is0 : List Nat) (pos : Nat) (m : List Int),
    m.length = n → pos < n → is0.Nodup →
    cnt (-1) m = is0.length →
    (∀ v ∈ is0, cnt ((v : Int)) m = 0) →
    (∀ j < n, j ∉ is0 → cnt ((j : Int)) m = 1) →
    (csLoop n il is0 pos m).length = n ∧
    (∀ j < n, cnt ((j : Int)) (csLoop n il is0 pos m) = 1) := by
  intro is0
  induction is0 with
  | nil =>
      intro pos m hlen _ _ _ _ hplaced
      exact ⟨hlen, fun j hj => hplaced j hj (by simp)⟩
  | cons i it ih =>
      intro pos m hlen hpos hnd hfree hunplaced hplaced
      have hn : 0 < n := by omega
      have hlpos : pos < m.length := by omega
      have hex : ∃ k < n, m.getD ((pos + k) % m.length) 0 = -1 := by
        have hc : 0 < cnt (-1) m := by simp [hfree]
        obtain ⟨j, hj, hg⟩ := cnt_pos_exists _ _ hc
        refine ⟨(j + m.length - pos) % m.length, ?_, ?_⟩
        · rw [hlen]
          exact Nat.mod_lt _ (by omega)
        · rw [Nat.add_mod_mod]
          have h1 : pos + (j + m.length - pos) = j + m.length := by omega
          rw [h1, Nat.add_mod_right, Nat.mod_eq_of_lt hj]
          exact hg
      have hffs := findFree_spec m n pos (by omega)
        (by rw [hlen] at hex ⊢; exact hex)
      obtain ⟨hplt, hpfree⟩ := hffs
      have hplt2 : findFree m pos n < m.length := by omega
      have hset := fun y => cnt_set m (findFree m pos n) ((i : Int)) y hplt2
      simp only [csLoop]
      have hnd2 : it.Nodup := (List.nodup_cons.mp hnd).2
      have hinotin : i ∉ it := (List.nodup_cons.mp hnd).1
      apply ih ((findFree m pos n + il) % n)
        (m.set (findFree m pos n) ((i : Int)))
      · simp [hlen]
      · exact Nat.mod_lt _ hn
      · exact hnd2
      · have hc := hset (-1)
        rw [hpfree] at hc
        have hii : ((i : Int)) ≠ (-1 : Int) := by omega
        rw [if_pos rfl, if_neg hii] at hc
        have hf : cnt (-1) m = it.length + 1 := by simpa using hfree
        omega
      · intro v hv
        have hc := hset ((v : Int))
        rw [hpfree] at hc
        have hne1 : (-1 : Int) ≠ ((v : Int)) := by omega
        have hne2 : ((i : Int)) ≠ ((v : Int)) := by
          have : i ≠ v := fun h => hinotin (h ▸ hv)
          omega
        rw [if_neg hne1, if_neg hne2] at hc
        have h0 := hunplaced v (List.mem_cons_of_mem _ hv)
        omega
      · intro j hj hjnot
        have hc := hset ((j : Int))
        rw [hpfree] at hc
        have hne1 : (-1 : Int) ≠ ((j : Int)) := by omega
        rw [if_neg hne1] at hc
        by_cases hji : j = i
        · subst hji
          rw [if_pos rfl] at hc
          have h0 := hunplaced j (by simp)
          omega
        · have hne2 : ((i : Int)) ≠ ((j : Int)) := by omega
          rw [if_neg hne2] at hc
          have h0 := hplaced j hj (by
            intro hmem
            rcases List.mem_cons.mp hmem with h | h
            · exact hji h
            · exact hjnot h)
          omega

/-! ### Claim C2 — interleave permutation -/

/-- C2: for every sector count `n ≥ 1` and every interleave factor,
cylinder skew and head skew (and any cylinder/head), `construct_sectors`
produces a rotational slot map of length `n` in which every logical sector
index `0..n-1` appears in exactly one slot — a bijection; in particular the
slot-assignment scan always terminates at a free slot (one circle of fuel
suffices, `findFree_spec`). -/
theorem claim_C2_interleave_bijection
    (n cyl head il cs hs : Nat) (hn : 1 ≤ n) :
    (constructSecMap n cyl head il cs hs).length = n ∧
    ∀ j < n, cnt ((j : Int)) (constructSecMap n cyl head il cs hs) = 1 := by
  unfold constructSecMap
  apply csLoop_inv
  · simp
  · rw [if_pos (by omega)]
    exact Nat.mod_lt _ (by omega)
  · exact List.nodup_range n
  · simp [cnt_replicate]
  · intro v _
    exact cnt_replicate_nonneg n v
  · intro j hj hjnot
    exact absurd (List.mem_range.mpr hj) hjnot

theorem claim_C2_witness :
    (constructSecMap 9 0 0 2 0 0).length = 9 ∧
    ∀ j : Nat, j < 9 → cnt ((j : Int)) (constructSecMap 9 0 0 2 0 0) = 1 :=
  claim_C2_interleave_bijection 9 0 0 2 0 0 (by decide)

/-! ### Format description compiler (`formats.py`)

Errors model Python exceptions: `msg` is the exception text, `ann` the
`"document, line N: "` annotation that `get_format`'s per-line handler
prepends (`None` when no annotation was added). -/

structure GWError where
  msg : String
  ann : Option (String × Nat)
deriving DecidableEq, Repr

/-- `error.check(cond, msg)` of the greaseweazle error module: raise
`error.Fatal(msg)` unless the condition holds. -/
def errCheck (b : Bool) (msg : String) : Except GWError Unit :=
  if b then .ok () else .error ⟨msg, none⟩

def digitsToNat (cs : List Char) : Nat :=
  cs.foldl (fun a ch => a * 10 + (ch.toNat - 48)) 0

/-- Python `int(val)`: optional sign then decimal digits.  (CPython also
strips surrounding whitespace and allows underscore grouping; neither can
reach here because the config grammar's value character classes exclude
whitespace, and underscores would make the numeric range checks fail the
same way.) -/
def pyIntParse (s : String) : Option Int :=
  match s.data with
  | [] => none
  | '-' :: t =>
      if t ≠ [] ∧ t.all Char.isDigit then some (-(digitsToNat t : Int))
      else none
  | '+' :: t =>
      if t ≠ [] ∧ t.all Char.isDigit then some (digitsToNat t : Int)
      else none
  | t => if t.all Char.isDigit then some (digitsToNat t : Int) else none

def pyIntE (s : String) : Except GWError Int :=
  match pyIntParse s with
  | some v => .ok v
  | none => .error ⟨"invalid literal for int", none⟩

/-- Python `str.split(',')`: the empty string yields `[""]`, a trailing
separator yields a trailing empty piece. -/
def splitComma : List Char → List (List Char)
  | [] => [[]]
  | c :: t =>
      if c = ',' then [] :: splitComma t
      else
        match splitComma t with
        | [] => [[c]]
        | g :: gs => (c :: g) :: gs

/-- formats.py lines 30-42: `IBMTrackConfig.__init__` field set. -/
structure IBMTrackConfig where
  secs : Nat
  sz : List Nat
  id : Nat
  h : Option Nat
  format_name : String
  interleave : Nat
  cskew : Nat
  hskew : Nat
  rpm : Nat
  gap1 : Option Nat
  gap2 : Option Nat
  gap3 : Option Nat
  gap4a : Option Nat
  iam : Bool
  rate : Nat
  finalised : Bool
deriving DecidableEq, Repr, Inhabited

def mkIBMTrackConfig (format_name : String) : IBMTrackConfig :=
  ⟨0, [], 1, none, format_name, 1, 0, 0, 300, none, none, none, none,
   true, 0, false⟩

/-- formats.py line 52: `re.match(r'(\d+)\*(\d+)', x)` — a prefix match,
trailing characters ignored. -/
def parseBpsRun (cs : List Char) : Option (Nat × Nat) :=
  let d1 := cs.takeWhile Char.isDigit
  if d1 = [] then none
  else
    match cs.dropWhile Char.isDigit with
    | '*' :: r2 =>
        let d2 := r2.takeWhile Char.isDigit
        if d2 = [] then none else some (digitsToNat d1, digitsToNat d2)
    | _ => none

/-- formats.py lines 57-62: search the size code `s ≤ 6` with
`n == 128 << s`; the `while` loop errors out at `s = 7`. -/
def bpsFindSz (n : Nat) : Except GWError Nat :=
  match (List.range 7).find? (fun s => n == 128 <<< s) with
  | some s => .ok s
  | none => .error ⟨"bps value out of range", none⟩

def ibmBpsOne (sz : List Nat) (x : String) : Except GWError (List Nat) :=
  match parseBpsRun x.data with
  | some (n, l) => do
      let s ← bpsFindSz n
      .ok (sz ++ List.replicate l s)
  | none => do
      let v ← pyIntE x
      if v < 0 then .error ⟨"bps value out of range", none⟩
      else do
        let s ← bpsFindSz v.toNat
        .ok (sz ++ [s])

def setGapField (c : IBMTrackConfig) (key : String) (v : Option Nat) :
    IBMTrackConfig :=
  if key = "gap1" then { c with gap1 := v }
  else if key = "gap2" then { c with gap2 := v }
  else if key = "gap3" then { c with gap3 := v }
  else if key = "gap4a" then { c with gap4a := v }
  else { c with h := v }

/-- formats.py lines 44-88: `IBMTrackConfig.add_param`. -/
def ibmAddParam (c : IBMTrackConfig) (key val : String) :
    Except GWError IBMTrackConfig :=
  if key = "secs" then do
    let v ← pyIntE val
    let _ ← errCheck (decide (0 ≤ v ∧ v ≤ 256)) "secs out of range"
    .ok { c with secs := v.toNat }
  else if key = "bps" then do
    let sz ← ((splitComma val.data).map String.mk).foldlM ibmBpsOne []
    .ok { c with sz := sz }
  else if key = "interleave" then do
    let v ← pyIntE val
    let _ ← errCheck (decide (1 ≤ v ∧ v ≤ 255)) "interleave out of range"
    .ok { c with interleave := v.toNat }
  else if key = "id" ∨ key = "cskew" ∨ key = "hskew" then do
    let v ← pyIntE val
    let _ ← errCheck (decide (0 ≤ v ∧ v ≤ 255)) (key ++ " out of range")
    .ok (if key = "id" then { c with id := v.toNat }
         else if key = "cskew" then { c with cskew := v.toNat }
         else { c with hskew := v.toNat })
  else if key = "gap1" ∨ key = "gap2" ∨ key = "gap3" ∨ key = "gap4a" ∨
          key = "h" then
    if val = "auto" then .ok (setGapField c key none)
    else do
      let v ← pyIntE val
      let _ ← errCheck (decide (0 ≤ v ∧ v ≤ 255)) (key ++ " out of range")
      .ok (setGapField c key (some v.toNat))
  else if key = "iam" then do
    let _ ← errCheck (val == "yes" || val == "no") "bad iam value"
    .ok { c with iam := val = "yes" }
  else if key = "rate" ∨ key = "rpm" then do
    let v ← pyIntE val
    let _ ← errCheck (decide (1 ≤ v ∧ v ≤ 2000)) (key ++ " out of range")
    .ok (if key = "rate" then { c with rate := v.toNat }
         else { c with rpm := v.toNat })
  else .error ⟨"unrecognised track option " ++ key, none⟩

/-- formats.py lines 90-97: `IBMTrackConfig.finalise` — idempotent; checks
that `gap1` is only set together with the index mark, and that a non-zero
sector count comes with a size schedule. -/
def ibmFinalise (c : IBMTrackConfig) : Except GWError IBMTrackConfig :=
  if c.finalised then .ok c
  else do
    let _ ← errCheck (c.iam || c.gap1 == none) "gap1 specified but no iam"
    let _ ← errCheck (c.secs == 0 || !c.sz.isEmpty) "sector size not specified"
    .ok { c with finalised := true }

/-- Modelled from the spec: the AmigaDOS codec (`amigados.py`) is outside
the shown sources and out of the spec's scope (§1); only its existence as a
recognised format family and a default-revolutions attribute are needed. -/
structure AmigaTrackConfig where
  format_name : String
deriving DecidableEq, Repr

inductive TrackConfigT
  | ibm : IBMTrackConfig → TrackConfigT
  | amiga : AmigaTrackConfig → TrackConfigT
deriving DecidableEq, Repr

instance : Inhabited TrackConfigT := ⟨.ibm (mkIBMTrackConfig "ibm.fm")⟩

def tcAddParam (t : TrackConfigT) (key val : String) :
    Except GWError TrackConfigT :=
  match t with
  | .ibm c => (ibmAddParam c key val).map .ibm
  | .amiga c => .ok (.amiga c)

def tcFinalise (t : TrackConfigT) : Except GWError TrackConfigT :=
  match t with
  | .ibm c => (ibmFinalise c).map .ibm
  | .amiga c => .ok (.amiga c)

/-- `IBMTrackConfig.default_revs = mfm.default_revs` (2: fm.py line 17,
spec §8 concrete scenario); the amiga value is modelled from the spec's
default of 2 revolutions and is never load-bearing below. -/
def tcDefaultRevs : TrackConfigT → Nat
  | .ibm _ => 2
  | .amiga _ => 2

/-- formats.py lines 179-184: `mk_track_config`. -/
def mkTrackConfigT (format_name : String) : Except GWError TrackConfigT :=
  if format_name = "amiga.amigados" then .ok (.amiga ⟨format_name⟩)
  else if format_name = "ibm.mfm" ∨ format_name = "ibm.fm" then
    .ok (.ibm (mkIBMTrackConfig format_name))
  else .error ⟨"unrecognised format name: " ++ format_name, none⟩

/-- formats.py lines 107-112: `DiskConfig`.  The Python `track_map` dict
maps `(cyl, head)` to a *shared* track-config object; sharing is modelled
by storing an index into the parser state's template store. -/
structure DiskConfig where
  cyls : Option Nat
  heads : Option Nat
  step : Nat
  track_map : List ((Nat × Nat) × Nat)
deriving DecidableEq, Repr

def mkDiskConfig : DiskConfig := ⟨none, none, 1, []⟩

/-- formats.py lines 114-128: `DiskConfig.add_param`. -/
def dcAddParam (dc : DiskConfig) (key val : String) :
    Except GWError DiskConfig :=
  if key = "cyls" then do
    let v ← pyIntE val
    let _ ← errCheck (decide (1 ≤ v ∧ v ≤ 255)) "cyls out of range"
    .ok { dc with cyls := some v.toNat }
  else if key = "heads" then do
    let v ← pyIntE val
    let _ ← errCheck (decide (1 ≤ v ∧ v ≤ 2)) "heads out of range"
    .ok { dc with heads := some v.toNat }
  else if key = "step" then do
    let v ← pyIntE val
    let _ ← errCheck (decide (1 ≤ v ∧ v ≤ 4)) "step out of range"
    .ok { dc with step := v.toNat }
  else .error ⟨"unrecognised disk option: " ++ key, none⟩

/-- formats.py lines 130-132: `DiskConfig.finalise`. -/
def dcFinalise (dc : DiskConfig) : Except GWError Unit := do
  let _ ← errCheck dc.cyls.isSome "missing cyls"
  let _ ← errCheck dc.heads.isSome "missing heads"
  .ok ()

/-- Ordered-dict lookup. -/
def alGet (m : List ((Nat × Nat) × Nat)) (k : Nat × Nat) : Option Nat :=
  match m.find? (fun kv => kv.1 == k) with
  | some kv => some kv.2
  | none => none

/-- Ordered-dict assignment `track_map[c,hd] = tc`: replace in place or
append. -/
def alSet : List ((Nat × Nat) × Nat) → Nat × Nat → Nat →
    List ((Nat × Nat) × Nat)
  | [], k, v => [(k, v)]
  | kv :: t, k, v => if kv.1 = k then (k, v) :: t else kv :: alSet t k v

def alMem (m : List ((Nat × Nat) × Nat)) (k : Nat × Nat) : Bool :=
  (alGet m k).isSome

/-- formats.py lines 229-232: the `*` wildcard assigns only positions not
already in the map. -/
def starStep (tid : Nat) (m : List ((Nat × Nat) × Nat)) (k : Nat × Nat) :
    List ((Nat × Nat) × Nat) :=
  if alMem m k then m else alSet m k tid

def applyStar (cyls heads tid : Nat) (m : List ((Nat × Nat) × Nat)) :
    List ((Nat × Nat) × Nat) :=
  (List.range cyls).foldl
    (fun m c => (List.range heads).foldl
      (fun m hd => starStep tid m (c, hd)) m) m

/-- formats.py lines 252-254: an explicit cylinder range assigns
unconditionally (`track_map[c,hd] = track_config`). -/
def applyRange (s e : Nat) (hs : List Nat) (tid : Nat)
    (m : List ((Nat × Nat) × Nat)) : List ((Nat × Nat) × Nat) :=
  (List.range (e + 1 - s)).foldl
    (fun m dc => hs.foldl (fun m hd => alSet m (s + dc, hd) tid) m) m

/-- formats.py lines 234-235: `re.match(r'(\d+)(?:-(\d+))?(?:\.([01]))?', x)`
— a prefix match: leading digits are required, the `-N` range suffix and
the `.H` head suffix are optional, and anything left over is ignored. -/
def parseTrackSpecItem (x : List Char) :
    Option (Nat × Option Nat × Option Nat) :=
  let d1 := x.takeWhile Char.isDigit
  if d1 = [] then none
  else
    let r1 := x.dropWhile Char.isDigit
    let er : Option Nat × List Char :=
      match r1 with
      | '-' :: t =>
          let d2 := t.takeWhile Char.isDigit
          if d2 = [] then (none, r1)
          else (some (digitsToNat d2), t.dropWhile Char.isDigit)
      | _ => (none, r1)
    let h : Option Nat :=
      match er.2 with
      | '.' :: hc :: _ =>
          if hc = '0' then some 0 else if hc = '1' then some 1 else none
      | _ => none
    some (digitsToNat d1, er.1, h)

/-- formats.py lines 227-254: apply one comma-separated element of the
`tracks` specifier to the track map. -/
def applyTracksItem (dc : DiskConfig) (tid : Nat) (x : String) :
    Except GWError DiskConfig :=
  let cyls := dc.cyls.getD 0
  let heads := dc.heads.getD 0
  if x = "*" then
    .ok { dc with track_map := applyStar cyls heads tid dc.track_map }
  else
    match parseTrackSpecItem x.data with
    | none => .error ⟨"bad track specifier", none⟩
    | some (s, eo, ho) => do
        let e := eo.getD s
        let hs ← (match ho with
          | none => pure (List.range heads)
          | some hv => do
              let _ ← errCheck (decide (hv < heads)) "head out of range"
              pure [hv])
        let _ ← errCheck (decide (s < cyls ∧ e < cyls ∧ s ≤ e))
          "cylinder out of range"
        .ok { dc with track_map := applyRange s e hs tid dc.track_map }

/-! #### Line scanning (the `re` patterns of `get_format`) -/

def pySpace (ch : Char) : Bool :=
  ch == ' ' || ch == '\t' || ch == '\n' || ch == '\r' ||
  ch == '\x0b' || ch == '\x0c'

def wordChar (ch : Char) : Bool := ch.isAlphanum || ch == '_'

def diskNameChar (ch : Char) : Bool :=
  wordChar ch || ch == ',' || ch == '.' || ch == '-'

def trackSpecChar (ch : Char) : Bool :=
  ch.isDigit || ch == ',' || ch == '.' || ch == '*' || ch == '-'

def keyChar (ch : Char) : Bool :=
  ch.isAlphanum || ch == ':' || ch == ',' || ch == '.' || ch == '_' ||
  ch == '-'

def valTrackChar (ch : Char) : Bool := keyChar ch || ch == '*'

/-- formats.py line 196: strip the comment and surrounding whitespace.
`re.match(r'\s*([^#]*)', l).group(1).strip()` equals: cut at the first
`#`, then strip whitespace at both ends. -/
def stripLine (l : List Char) : List Char :=
  let t := l.takeWhile (fun ch => ch != '#')
  ((t.dropWhile pySpace).reverse.dropWhile pySpace).reverse

/-- formats.py line 203: `re.match(r'disk\s+([\w,.-]+)', t)`.  The name
class contains no whitespace, so greedy matching is deterministic. -/
def matchDisk (t : List Char) : Option String :=
  match t with
  | 'd' :: 'i' :: 's' :: 'k' :: rest =>
      match rest with
      | c0 :: _ =>
          if pySpace c0 then
            let nm := (rest.dropWhile pySpace).takeWhile diskNameChar
            if nm = [] then none else some (String.mk nm)
          else none
      | [] => none
  | _ => none

/-- formats.py lines 216-217:
`re.match(r'tracks\s+([0-9,.*-]+)\s+([\w,.-]+)', t)`.  Both classes
exclude whitespace, so greedy matching is deterministic. -/
def matchTracks (t : List Char) : Option (String × String) :=
  match t with
  | 't' :: 'r' :: 'a' :: 'c' :: 'k' :: 's' :: rest =>
      match rest with
      | c0 :: _ =>
          if pySpace c0 then
            let r1 := rest.dropWhile pySpace
            let g1 := r1.takeWhile trackSpecChar
            if g1 = [] then none
            else
              match r1.dropWhile trackSpecChar with
              | c1 :: _ =>
                  if pySpace (c1) then
                    let g2 := ((r1.dropWhile trackSpecChar).dropWhile
                      pySpace).takeWhile diskNameChar
                    if g2 = [] then none
                    else some (String.mk g1, String.mk g2)
                  else none
              | [] => none
          else none
      | [] => none
  | _ => none

/-- formats.py lines 260-261 and 277-278: the key=value patterns (the
Track-mode value class additionally contains `*`). -/
def matchKeyVal (valC : Char → Bool) (t : List Char) :
    Option (String × String) :=
  let k := t.takeWhile keyChar
  if k = [] then none
  else
    match (t.dropWhile keyChar).dropWhile pySpace with
    | '=' :: r2 =>
        let v := (r2.dropWhile pySpace).takeWhile valC
        if v = [] then none else some (String.mk k, String.mk v)
    | _ => none

/-! #### The parser state machine (`get_format`, formats.py 187-292) -/

inductive ParseMode
  | Outer
  | Disk
  | Track
deriving DecidableEq, Repr

structure PState where
  mode : ParseMode
  active : Bool
  disk_config : Option DiskConfig
  track_config : Option Nat
  templates : List TrackConfigT
deriving DecidableEq, Repr

def initPState : PState := ⟨.Outer, false, none, none, []⟩

/-- The body of the per-line loop of `get_format` (formats.py 195-281),
minus the annotating exception handler. -/
def processLine (name : String) (st : PState) (l : String) :
    Except GWError PState :=
  let t := stripLine l.data
  if t.isEmpty then .ok st
  else
    match st.mode with
    | .Outer =>
        match matchDisk t with
        | none => .error ⟨"syntax error", none⟩
        | some nm =>
            let act : Bool := nm == name
            .ok { st with
                    mode := .Disk,
                    active := act,
                    disk_config := (if act then some mkDiskConfig
                                    else st.disk_config) }
    | .Disk =>
        if t = "end".data then
          .ok { st with mode := .Outer, active := false }
        else
          match matchTracks t with
          | some (g1, g2) =>
              if !st.active then .ok { st with mode := .Track }
              else
                let dc := st.disk_config.getD mkDiskConfig
                do
                  let _ ← errCheck dc.cyls.isSome "missing cyls"
                  let _ ← errCheck dc.heads.isSome "missing heads"
                  let tc ← mkTrackConfigT g2
                  let tid := st.templates.length
                  let dc2 ← ((splitComma g1.data).map String.mk).foldlM
                    (fun d x => applyTracksItem d tid x) dc
                  .ok { st with
                          mode := .Track,
                          disk_config := some dc2,
                          track_config := some tid,
                          templates := st.templates ++ [tc] }
          | none =>
              if !st.active then .ok st
              else
                match matchKeyVal keyChar t with
                | none => .error ⟨"syntax error", none⟩
                | some (k, v) => do
                    let dc2 ← dcAddParam (st.disk_config.getD mkDiskConfig) k v
                    .ok { st with disk_config := some dc2 }
    | .Track =>
        if t = "end".data then
          match st.track_config with
          | some tid => do
              let tc2 ← tcFinalise (st.templates.getD tid default)
              .ok { st with
                      mode := .Disk,
                      track_config := none,
                      templates := st.templates.set tid tc2 }
          | none => .ok { st with mode := .Disk }
        else if !st.active then .ok st
        else
          match matchKeyVal valTrackChar t with
          | none => .error ⟨"syntax error", none⟩
          | some (k, v) =>
              match st.track_config with
              | none => .ok st
              | some tid => do
                  let tc2 ← tcAddParam (st.templates.getD tid default) k v
                  .ok { st with templates := st.templates.set tid tc2 }

/-- formats.py lines 193 and 283-286: the per-line loop; any exception
raised by the body is annotated with the document identifier and the
1-based line number and re-raised, aborting the parse. -/
def runLines (cfg name : String) : List String → Nat → PState →
    Except GWError PState
  | [], _, st => .ok st
  | l :: ls, k, st =>
      match processLine name st l with
      | .error e => .error { e with ann := some (cfg, k) }
      | .ok st2 => runLines cfg name ls (k + 1) st2

/-- Python `max` over a list: raises on an empty sequence. -/
def pymax : List Nat → Except GWError Nat
  | [] => .error ⟨"max() arg is an empty sequence", none⟩
  | x :: t => .ok (t.foldl max x)

/-- formats.py lines 158-159: `DiskConfig.default_revs` — `max` over the
default revolution counts of the mapped templates. -/
def dcDefaultRevs (dc : DiskConfig) (templates : List TrackConfigT) :
    Except GWError Nat :=
  pymax (dc.track_map.map (fun kv => tcDefaultRevs (templates.getD kv.2 default)))

/-- formats.py lines 17-23: `Format.__init__` (the `TrackSet` expansion is
a pure string derivation not needed by any claim). -/
structure Format where
  fmt : DiskConfig
  templates : List TrackConfigT
  default_revs : Nat
deriving DecidableEq, Repr

def mkFormat (dc : DiskConfig) (templates : List TrackConfigT) :
    Except GWError Format := do
  let revs ← dcDefaultRevs dc templates
  .ok ⟨dc, templates, revs⟩

/-- formats.py lines 187-292: `get_format` over an explicit line list;
`.ok none` models the Python `return None` when no disk block matched. -/
def getFormat (cfg name : String) (lines : List String) :
    Except GWError (Option Format) :=
  match runLines cfg name lines 1 initPState with
  | .error e => .error e
  | .ok st =>
      match st.disk_config with
      | none => .ok none
      | some dc =>
          match dcFinalise dc with
          | .error e => .error e
          | .ok _ =>
              match mkFormat dc st.templates with
              | .error e => .error e
              | .ok f => .ok (some f)

/-! ### Claim C9 — gap1 without iam is rejected at finalization -/

/-- C9: finalizing a (not yet finalised) track template fails with the
`gap1 specified but no iam` error exactly when `gap1` is set and the
index-mark flag is disabled; with `iam` enabled or `gap1` unset this check
never fires (the finalization may still fail on the sector-size check,
which carries a different message). -/
theorem claim_C9_gap1_iam (c : IBMTrackConfig) (hf : c.finalised = false) :
    (c.iam = false → c.gap1.isSome →
      ibmFinalise c = .error ⟨"gap1 specified but no iam", none⟩) ∧
    (c.iam = true ∨ c.gap1 = none →
      ibmFinalise c ≠ .error ⟨"gap1 specified but no iam", none⟩) := by
  constructor
  · intro hiam hg1
    obtain ⟨g, hg⟩ := Option.isSome_iff_exists.mp hg1
    simp [ibmFinalise, hf, errCheck, hiam, hg, Bind.bind, Except.bind]
  · intro hor
    have hcond : (c.iam || c.gap1 == none) = true := by
      rcases hor with h | h
      · simp [h]
      · simp [h]
    by_cases h2 : (c.secs == 0 || !c.sz.isEmpty) = true
    · simp [ibmFinalise, hf, errCheck, hcond, h2, Bind.bind, Except.bind]
    · simp [ibmFinalise, hf, errCheck, hcond, h2, Bind.bind, Except.bind]

theorem claim_C9_witness :
    ibmFinalise { mkIBMTrackConfig "ibm.fm" with
                    iam := false, gap1 := some 10 } =
      .error ⟨"gap1 specified but no iam", none⟩ ∧
    ibmFinalise { mkIBMTrackConfig "ibm.fm" with secs := 9, sz := [2] } ≠
      .error ⟨"gap1 specified but no iam", none⟩ :=
  ⟨(claim_C9_gap1_iam
      { mkIBMTrackConfig "ibm.fm" with iam := false, gap1 := some 10 }
      rfl).1 rfl rfl,
   (claim_C9_gap1_iam
      { mkIBMTrackConfig "ibm.fm" with secs := 9, sz := [2] }
      rfl).2 (Or.inl rfl)⟩

/-! ### Claim C4 — later `tracks` directives and existing assignments -/

/-- Projection used to exhibit which template a finished `Format` assigns
to a position. -/
def formatTrackTemplate (r : Except GWError (Option Format))
    (pos : Nat × Nat) : Option TrackConfigT :=
  match r with
  | .ok (some f) => (alGet f.fmt.track_map pos).map
      (fun i => f.templates.getD i default)
  | _ => none

/-- C4 counterexample: in a config whose first directive is
`tracks 0 ibm.fm` and whose second is `tracks 0-1 ibm.mfm`, position
(0,0) — assigned by the first directive — ends up with the `ibm.mfm`
template of the *second* directive: an explicit cylinder-range specifier
overwrites existing assignments, refuting the claim for non-wildcard
directives. -/
theorem claim_C4_cex :
    formatTrackTemplate (getFormat "d.cfg" "foo"
      ["disk foo", "cyls=2", "heads=1", "tracks 0 ibm.fm", "end", "end"])
      (0, 0) =
      some (.ibm { mkIBMTrackConfig "ibm.fm" with finalised := true }) ∧
    formatTrackTemplate (getFormat "d.cfg" "foo"
      ["disk foo", "cyls=2", "heads=1", "tracks 0 ibm.fm", "end",
       "tracks 0-1 ibm.mfm", "end", "end"]) (0, 0) =
      some (.ibm { mkIBMTrackConfig "ibm.mfm" with finalised := true }) ∧
    (TrackConfigT.ibm { mkIBMTrackConfig "ibm.mfm" with finalised := true }) ≠
      .ibm { mkIBMTrackConfig "ibm.fm" with finalised := true } :=
  ⟨rfl, rfl, by decide⟩

theorem alGet_alSet_self (m : List ((Nat × Nat) × Nat)) (k : Nat × Nat)
    (v : Nat) : alGet (alSet m k v) k = some v := by
  induction m with
  | nil => simp [alGet, alSet]
  | cons kv t ih =>
      by_cases h : kv.1 = k
      · simp [alSet, h, alGet]
      · have hb : (kv.1 == k) = false := by
          simp only [beq_eq_false_iff_ne, ne_eq]
          exact h
        simp only [alSet, if_neg h, alGet, List.find?]
        rw [hb]
        simpa [alGet] using ih

theorem alGet_alSet_other (m : List ((Nat × Nat) × Nat)) (k k2 : Nat × Nat)
    (v : Nat) (h : k2 ≠ k) : alGet (alSet m k v) k2 = alGet m k2 := by
  induction m with
  | nil =>
      have hb : (k == k2) = false := by
        simp only [beq_eq_false_iff_ne, ne_eq]
        exact fun he => h he.symm
      simp [alGet, alSet, List.find?, hb]
  | cons kv t ih =>
      by_cases hk : kv.1 = k
      · have hb : (k == k2) = false := by
          simp only [beq_eq_false_iff_ne, ne_eq]
          exact fun he => h he.symm
        have hb2 : (kv.1 == k2) = false := by
          simp only [beq_eq_false_iff_ne, ne_eq]
          intro he
          exact h (by rw [← he, hk])
        simp [alSet, hk, alGet, List.find?, hb, hb2]
      · simp only [alSet, if_neg hk, alGet, List.find?]
        by_cases hk2 : (kv.1 == k2) = true
        · simp [hk2]
        · simp only [Bool.not_eq_true] at hk2
          rw [hk2]
          simpa [alGet] using ih

theorem starStep_preserve (tid : Nat) (m : List ((Nat × Nat) × Nat))
    (k k2 : Nat × Nat) (v : Nat) (h : alGet m k2 = some v) :
    alGet (starStep tid m k) k2 = some v := by
  unfold starStep
  by_cases hm : alMem m k
  · simp [hm, h]
  · rw [if_neg hm]
    by_cases hk : k2 = k
    · subst hk
      exact absurd (by simp [alMem, h]) hm
    · rw [alGet_alSet_other m k k2 tid hk]
      exact h

theorem innerStar_preserve (tid c : Nat) (k2 : Nat × Nat) (v : Nat) :
    ∀ (hs : List Nat) (m : List ((Nat × Nat) × Nat)),
    alGet m k2 = some v →
    alGet (hs.foldl (fun m hd => starStep tid m (c, hd)) m) k2 = some v := by
  intro hs
  induction hs with
  | nil => intro m h; exact h
  | cons hd ht ih =>
      intro m h
      simp only [List.foldl_cons]
      exact ih _ (starStep_preserve tid m (c, hd) k2 v h)

theorem outerStar_preserve (heads tid : Nat) (k2 : Nat × Nat) (v : Nat) :
    ∀ (cs : List Nat) (m : List ((Nat × Nat) × Nat)),
    alGet m k2 = some v →
    alGet (cs.foldl (fun m c => (List.range heads).foldl
      (fun m hd => starStep tid m (c, hd)) m) m) k2 = some v := by
  intro cs
  induction cs with
  | nil => intro m h; exact h
  | cons c ct ih =>
      intro m h
      simp only [List.foldl_cons]
      exact ih _ (innerStar_preserve tid c k2 v (List.range heads) m h)

theorem applyStar_preserve (cyls heads tid : Nat)
    (m : List ((Nat × Nat) × Nat)) (k2 : Nat × Nat) (v : Nat)
    (h : alGet m k2 = some v) :
    alGet (applyStar cyls heads tid m) k2 = some v :=
  outerStar_preserve heads tid k2 v (List.range cyls) m h

theorem innerSet_notmem (tid c hd : Nat) :
    ∀ (hs : List Nat) (m : List ((Nat × Nat) × Nat)), hd ∉ hs →
    alGet (hs.foldl (fun m h2 => alSet m (c, h2) tid) m) (c, hd) =
      alGet m (c, hd) := by
  intro hs
  induction hs with
  | nil => intro m _; rfl
  | cons h0 ht ih =>
      intro m hnot
      have h1 : hd ≠ h0 := fun he => hnot (by simp [he])
      have h2 : hd ∉ ht := fun he => hnot (List.mem_cons_of_mem _ he)
      simp only [List.foldl_cons]
      rw [ih _ h2, alGet_alSet_other]
      intro he
      exact h1 (by simpa [Prod.ext_iff] using he)

theorem innerSet_mem (tid c hd : Nat) :
    ∀ (hs : List Nat) (m : List ((Nat × Nat) × Nat)), hd ∈ hs →
    alGet (hs.foldl (fun m h2 => alSet m (c, h2) tid) m) (c, hd) =
      some tid := by
  intro hs
  induction hs with
  | nil => intro m h; simp at h
  | cons h0 ht ih =>
      intro m hmem
      simp only [List.foldl_cons]
      by_cases hin : hd ∈ ht
      · exact ih _ hin
      · have h0d : hd = h0 := by
          rcases List.mem_cons.mp hmem with h | h
          · exact h
          · exact absurd h hin
        subst h0d
        rw [innerSet_notmem tid c hd ht _ hin]
        exact alGet_alSet_self m (c, hd) tid

theorem innerSet_other (tid c : Nat) (k2 : Nat × Nat) (hc : k2.1 ≠ c) :
    ∀ (hs : List Nat) (m : List ((Nat × Nat) × Nat)),
    alGet (hs.foldl (fun m h2 => alSet m (c, h2) tid) m) k2 = alGet m k2 := by
  intro hs
  induction hs with
  | nil => intro m; rfl
  | cons h0 ht ih =>
      intro m
      simp only [List.foldl_cons]
      rw [ih, alGet_alSet_other]
      intro he
      exact hc (by rw [he])

theorem outerSet_preserve (s tid : Nat) (hs : List Nat) (c hd : Nat) :
    ∀ (ds : List Nat) (m : List ((Nat × Nat) × Nat)),
    (∀ d ∈ ds, s + d ≠ c) →
    alGet (ds.foldl (fun m dc => hs.foldl
      (fun m h2 => alSet m (s + dc, h2) tid) m) m) (c, hd) =
      alGet m (c, hd) := by
  intro ds
  induction ds with
  | nil => intro m _; rfl
  | cons d dt ih =>
      intro m hne
      simp only [List.foldl_cons]
      rw [ih _ (fun d2 h2 => hne d2 (List.mem_cons_of_mem _ h2)),
        innerSet_other tid (s + d) (c, hd) (hne d (by simp)).symm]

theorem applyRange_mem (s e tid : Nat) (hs : List Nat) (c hd : Nat)
    (hsc : s ≤ c) (hce : c ≤ e) (hmem : hd ∈ hs)
    (m : List ((Nat × Nat) × Nat)) :
    alGet (applyRange s e hs tid m) (c, hd) = some tid := by
  unfold applyRange
  have hcin : c - s ∈ List.range (e + 1 - s) := List.mem_range.mpr (by omega)
  have hnd : (List.range (e + 1 - s)).Nodup := List.nodup_range _
  generalize hg : List.range (e + 1 - s) = dcs at hcin hnd
  clear hg
  induction dcs generalizing m with
  | nil => simp at hcin
  | cons d ds ih =>
      simp only [List.foldl_cons]
      by_cases hd0 : s + d = c
      · have hnotin : ∀ d2 ∈ ds, s + d2 ≠ c := by
          intro d2 h2 he
          have hdd : d2 = d := by omega
          exact (List.nodup_cons.mp hnd).1 (hdd ▸ h2)
        rw [outerSet_preserve s tid hs c hd ds _ hnotin]
        rw [← hd0]
        exact innerSet_mem tid (s + d) hd hs m hmem
      · have hcin2 : c - s ∈ ds := by
          rcases List.mem_cons.mp hcin with h | h
          · exact absurd (by omega : s + d = c) hd0
          · exact h
        exact ih _ hcin2 (List.nodup_cons.mp hnd).2

/-- C4 amended: a position already assigned retains its template under a
`*` wildcard directive (formats.py lines 229-232 check membership first),
but an explicit cylinder-range specifier (lines 252-254) assigns
unconditionally, overwriting any existing assignment. -/
theorem claim_C4_amended (m : List ((Nat × Nat) × Nat)) (k : Nat × Nat)
    (tidOld tidNew cyls heads : Nat) (h : alGet m k = some tidOld) :
    alGet (applyStar cyls heads tidNew m) k = some tidOld ∧
    (∀ s e (hs : List Nat), s ≤ k.1 → k.1 ≤ e → k.2 ∈ hs →
      alGet (applyRange s e hs tidNew m) k = some tidNew) := by
  constructor
  · exact applyStar_preserve cyls heads tidNew m k tidOld h
  · intro s e hs h1 h2 h3
    have := applyRange_mem s e tidNew hs k.1 k.2 h1 h2 h3 m
    simpa using this

theorem claim_C4_witness :
    alGet (applyStar 2 2 7 [((0, 0), 5)]) (0, 0) = some 5 ∧
    alGet (applyRange 0 1 [0, 1] 7 [((0, 0), 5)]) (0, 0) = some 7 :=
  ⟨(claim_C4_amended [((0, 0), 5)] (0, 0) 5 7 2 2 rfl).1,
   (claim_C4_amended [((0, 0), 5)] (0, 0) 5 7 2 2 rfl).2 0 1 [0, 1]
     (by decide) (by decide) (by decide)⟩

/-! ### Claim C6 — error annotation and immediate abort -/

theorem runLines_error_ann (cfg name : String) :
    ∀ (lines : List String) (k0 : Nat) (st : PState) (e : GWError),
    runLines cfg name lines k0 st = .error e →
    ∃ k, e.ann = some (cfg, k) ∧ k0 ≤ k ∧ k < k0 + lines.length := by
  intro lines
  induction lines with
  | nil => intro k0 st e h; simp [runLines] at h
  | cons l ls ih =>
      intro k0 st e h
      simp only [runLines] at h
      cases hp : processLine name st l with
      | error e0 =>
          rw [hp] at h
          refine ⟨k0, ?_, le_refl _, by simp⟩
          have he : e = { e0 with ann := some (cfg, k0) } := by
            cases h
            rfl
          rw [he]
      | ok st2 =>
          rw [hp] at h
          obtain ⟨k, hk1, hk2, hk3⟩ := ih (k0 + 1) st2 e h
          refine ⟨k, hk1, by omega, by simp at hk3 ⊢; omega⟩

theorem runLines_abort (cfg name : String) :
    ∀ (l1 l2 : List String) (k0 : Nat) (st : PState) (e : GWError),
    runLines cfg name l1 k0 st = .error e →
    runLines cfg name (l1 ++ l2) k0 st = .error e := by
  intro l1
  induction l1 with
  | nil => intro l2 k0 st e h; simp [runLines] at h
  | cons l ls ih =>
      intro l2 k0 st e h
      simp only [runLines, List.cons_append] at h ⊢
      cases hp : processLine name st l with
      | error e0 => rw [hp] at h; exact h
      | ok st2 => rw [hp] at h; exact ih l2 (k0 + 1) st2 e h

theorem dcFinalise_error (dc : DiskConfig) (e : GWError)
    (h : dcFinalise dc = .error e) :
    e.ann = none ∧ (e.msg = "missing cyls" ∨ e.msg = "missing heads") := by
  by_cases hc : dc.cyls.isSome
  · by_cases hh : dc.heads.isSome
    · simp [dcFinalise, errCheck, hc, hh, Bind.bind, Except.bind] at h
    · simp [dcFinalise, errCheck, hc, hh, Bind.bind, Except.bind] at h
      rw [← h]
      exact ⟨rfl, Or.inr rfl⟩
  · simp [dcFinalise, errCheck, hc, Bind.bind, Except.bind] at h
    rw [← h]
    exact ⟨rfl, Or.inl rfl⟩

theorem mkFormat_error (dc : DiskConfig) (ts : List TrackConfigT)
    (e : GWError) (h : mkFormat dc ts = .error e) :
    e.ann = none ∧ e.msg = "max() arg is an empty sequence" := by
  cases hm : dc.track_map with
  | nil =>
      simp [mkFormat, dcDefaultRevs, hm, pymax, Bind.bind, Except.bind] at h
      rw [← h]
      exact ⟨rfl, rfl⟩
  | cons kv t =>
      simp [mkFormat, dcDefaultRevs, hm, pymax, Bind.bind, Except.bind] at h

/-- C6 amended: every error raised while processing a source line is
annotated with the document identifier and the 1-based line number of that
line, and the parse aborts at the first such error (appending further
input changes nothing).  However the errors raised *after* the line loop —
the end-of-input `DiskConfig.finalise` (`missing cyls`/`missing heads`)
and the empty-track-map revolution-count error — are raised without any
line annotation, contrary to the claim as stated. -/
theorem claim_C6_amended (cfg name : String) :
    (∀ (lines : List String) (e : GWError),
       getFormat cfg name lines = .error e →
       (∃ k, e.ann = some (cfg, k) ∧ 1 ≤ k ∧ k ≤ lines.length) ∨
       (e.ann = none ∧ (e.msg = "missing cyls" ∨ e.msg = "missing heads" ∨
         e.msg = "max() arg is an empty sequence"))) ∧
    (∀ (l1 l2 : List String) (k0 : Nat) (st : PState) (e : GWError),
       runLines cfg name l1 k0 st = .error e →
       runLines cfg name (l1 ++ l2) k0 st = .error e) := by
  constructor
  · intro lines e h
    unfold getFormat at h
    split at h
    · rename_i e0 heq
      injection h with he
      rw [he] at heq
      obtain ⟨k, hk1, hk2, hk3⟩ :=
        runLines_error_ann cfg name lines 1 initPState e heq
      exact Or.inl ⟨k, hk1, hk2, by omega⟩
    · rename_i st heq
      split at h
      · cases h
      · rename_i dc hdc
        split at h
        · rename_i e1 hfe
          injection h with he
          rw [he] at hfe
          obtain ⟨h1, h2⟩ := dcFinalise_error dc e hfe
          exact Or.inr ⟨h1, h2.imp id Or.inl⟩
        · rename_i u hfo
          split at h
          · rename_i e2 hme
            injection h with he
            rw [he] at hme
            obtain ⟨h1, h2⟩ := mkFormat_error dc st.templates e hme
            exact Or.inr ⟨h1, Or.inr (Or.inr h2)⟩
          · rename_i f hmo
            cases h
  · exact runLines_abort cfg name

/-- C6 counterexample: a matching disk block that reaches end of input
without `cyls` makes `get_format` raise `missing cyls` with *no* line
annotation — the end-of-input finalization error is outside the annotating
per-line handler, refuting the claim as stated. -/
theorem claim_C6_cex :
    getFormat "diskdefs.cfg" "foo" ["disk foo", "end"] =
      .error ⟨"missing cyls", none⟩ := rfl

theorem claim_C6_witness :
    (∃ k, (GWError.mk "syntax error" (some ("d.cfg", 1))).ann =
        some ("d.cfg", k) ∧ 1 ≤ k ∧ k ≤ (["oops"] : List String).length) ∨
    ((GWError.mk "syntax error" (some ("d.cfg", 1))).ann = none ∧
     ((GWError.mk "syntax error" (some ("d.cfg", 1))).msg = "missing cyls" ∨
      (GWError.mk "syntax error" (some ("d.cfg", 1))).msg = "missing heads" ∨
      (GWError.mk "syntax error" (some ("d.cfg", 1))).msg =
        "max() arg is an empty sequence")) :=
  (claim_C6_amended "d.cfg" "foo").1 ["oops"]
    ⟨"syntax error", some ("d.cfg", 1)⟩ rfl

/-! ### Claim C10 — empty track map makes Format construction raise -/

/-- The scenario of claim C10, decidably: parsing succeeds, the requested
disk block exists, its cylinder/head counts are set, but its track map is
empty. -/
def emptyMapScenario (cfg name : String) (lines : List String) : Bool :=
  match runLines cfg name lines 1 initPState with
  | .ok st =>
      match st.disk_config with
      | some dc => dc.cyls.isSome && dc.heads.isSome && dc.track_map.isEmpty
      | none => false
  | .error _ => false

/-- C10: whenever the matching disk block assigns no (cylinder, head)
position at all, `get_format` neither returns a Format nor `None`:
the `Format` constructor's default-revolution count is a `max` over an
empty collection of templates and raises. -/
theorem claim_C10_empty_map (cfg name : String) (lines : List String)
    (h : emptyMapScenario cfg name lines = true) :
    getFormat cfg name lines =
      .error ⟨"max() arg is an empty sequence", none⟩ := by
  unfold emptyMapScenario at h
  split at h
  · rename_i st heq
    split at h
    · rename_i dc hdc
      simp only [Bool.and_eq_true] at h
      obtain ⟨⟨hc, hh⟩, hm⟩ := h
      have hm2 : dc.track_map = [] := by
        cases hx : dc.track_map with
        | nil => rfl
        | cons kv t => rw [hx] at hm; simp [List.isEmpty] at hm
      have hfin : dcFinalise dc = .ok () := by
        simp [dcFinalise, errCheck, hc, hh, Bind.bind, Except.bind]
      have hmk : mkFormat dc st.templates =
          .error ⟨"max() arg is an empty sequence", none⟩ := by
        simp [mkFormat, dcDefaultRevs, hm2, pymax, Bind.bind, Except.bind]
      unfold getFormat
      simp only [heq, hdc, hfin, hmk]
    · cases h
  · cases h

theorem claim_C10_witness :
    emptyMapScenario "d.cfg" "foo"
      ["disk foo", "cyls=40", "heads=1", "end"] = true ∧
    getFormat "d.cfg" "foo" ["disk foo", "cyls=40", "heads=1", "end"] =
      .error ⟨"max() arg is an empty sequence", none⟩ :=
  ⟨by decide,
   claim_C10_empty_map "d.cfg" "foo"
     ["disk foo", "cyls=40", "heads=1", "end"] (by decide)⟩

/-! ### FM bit codec primitives (fm.py lines 19-42 and 369-385)

Bit arrays are represented as a length plus a value whose bit `i`
(counting from the first bit of the array) is bit `len - 1 - i` of the
value; byte strings are `List Nat`. -/

/-- fm.py lines 369-377: `encode_list[x]` — each data bit is preceded by
a set clock bit. -/
def encByte (x : Nat) : Nat :=
  (List.range 8).foldl (fun y i => y * 4 + 2 + ((x >>> (7 - i)) &&& 1)) 0

/-- fm.py lines 19-26: `sync(dat, clk)` as a 16-bit word — interleaves the
given clock byte (with deliberate missing-clock violations) with the data
byte. -/
def syncWord (dat clk : Nat) : Nat :=
  (List.range 8).foldl
    (fun x i => x * 4 + 2 * ((clk >>> (7 - i)) &&& 1) + ((dat >>> (7 - i)) &&& 1))
    0

/-- Forces a `Nat` to constructor/literal form before passing it on, so
long accumulator chains evaluate iteratively instead of as one deep nest
of thunks (semantically the identity). -/
def natCase (v : Nat) (f : Nat → α) : α :=
  match v with
  | 0 => f 0
  | m + 1 => f (m + 1)

theorem natCase_eq (v : Nat) (f : Nat → α) : natCase v f = f v := by
  cases v <;> rfl

/-- Modelled from the spec: CRC-16/CCITT-FALSE of the `crcmod` library
(fm.py line 36) — polynomial 0x1021, initial value 0xFFFF, no reflection,
no final xor; `crc == 0` over data-plus-stored-checksum means valid.
(The helpers below force the running register to a literal at every step —
see `natCase` — so that long inputs evaluate iteratively.) -/
def crc16Round (c : Nat) : Nat :=
  if c.testBit 15 then ((c <<< 1) ^^^ 0x1021) &&& 0xffff
  else (c <<< 1) &&& 0xffff

def crc16Bits : Nat → Nat → Nat
  | 0, c => c
  | k + 1, c => natCase (crc16Round c) (crc16Bits k)

def crc16Byte (crc b : Nat) : Nat := crc16Bits 8 (crc ^^^ ((b &&& 255) <<< 8))

def crc16Go : List Nat → Nat → Nat
  | [], c => c
  | b :: bs, c => natCase (crc16Byte c b) (crc16Go bs)

def crc16 (bs : List Nat) : Nat := crc16Go bs 0xffff

structure Bits where
  len : Nat
  val : Nat
deriving DecidableEq, Repr

def bitsFoldBytes : List Nat → Nat → Nat
  | [], v => v
  | x :: xs, v => natCase (v <<< 8 ||| (x &&& 255)) (bitsFoldBytes xs)

def bitsOfBytes (bs : List Nat) : Bits :=
  ⟨8 * bs.length, bitsFoldBytes bs 0⟩

/-- `bits[s:e]` as a value (caller keeps `e ≤ len`). -/
def bslice (b : Bits) (s e : Nat) : Nat :=
  (b.val >>> (b.len - e)) &&& ((1 <<< (e - s)) - 1)

/-- Scan of the candidate offsets `lo .. lo + cnt - 1`, divide and
conquer so the evaluation depth stays logarithmic (the fuel bounds the
split depth; `2^fuel ≥ cnt` keeps the linear fallback unreachable). -/
def searchRange (b : Bits) (pat : Bits) : Nat → Nat → Nat → List Nat
  | 0, lo, cnt =>
      (List.range cnt).filter (fun j => bslice b (lo + j) (lo + j + pat.len) == pat.val)
        |>.map (lo + ·)
  | fuel + 1, lo, cnt =>
      if cnt = 0 then []
      else if cnt = 1 then
        (if bslice b lo (lo + pat.len) == pat.val then [lo] else [])
      else
        searchRange b pat fuel lo (cnt / 2) ++
        searchRange b pat fuel (lo + cnt / 2) (cnt - cnt / 2)

/-- `bitarray.itersearch`: every (overlapping) occurrence, ascending. -/
def searchAll (b : Bits) (pat : Bits) : List Nat :=
  if b.len < pat.len then []
  else searchRange b pat 32 0 (b.len - pat.len + 1)

/-- Modelled from the spec: `mfm.decode` (fm.py line 385, mfm.py not in
the shown sources) — extracts the odd-position (data) bits, one byte per
16-bit cell (spec §4.2). -/
def decodeWord (w : Nat) : Nat :=
  (List.range 8).foldl (fun d j => d * 2 + ((w >>> (14 - 2 * j)) &&& 1)) 0

def decodeBits (v cells : Nat) : List Nat :=
  (List.range cells).map
    (fun j => decodeWord ((v >>> (16 * (cells - 1 - j))) &&& 0xffff))

/-- fm.py lines 28-30: `sync_prefix` — two encoded 0x00 gap-presync bytes
followed by the first 10 bits of `sync(0xf8)`. -/
def syncPfxPat : Bits := ⟨26, (0xaaaa <<< 10) ||| (syncWord 0xf8 0xc7 >>> 6)⟩

/-- fm.py lines 32-34: `iam_sync` — two encoded 0x00 bytes followed by the
full `sync(0xfc, 0xd7)` cell. -/
def iamSyncPat : Bits := ⟨32, (0xaaaa <<< 16) ||| syncWord 0xfc 0xd7⟩

/-! ### `from_format` arithmetic (fm.py lines 307-364) -/

/-- fm.py lines 320-323: gap1 defaults to `GAP_1 = 26` and exists only
with the index mark. -/
def fmGap1 (c : IBMTrackConfig) : Option Nat :=
  if c.iam then some (c.gap1.getD 26) else none

/-- fm.py line 324: gap2 defaults to `GAP_2 = 11`. -/
def fmGap2 (c : IBMTrackConfig) : Nat := c.gap2.getD 11

/-- fm.py lines 326-329. -/
def fmGap4a (c : IBMTrackConfig) : Nat :=
  c.gap4a.getD (if c.iam then 40 else 16)

/-- fm.py lines 304-305: `sec_n(i)` — the size schedule, its last entry
repeated.  (`sz[-1]` on an empty schedule raises in Python; a finalised
config with sectors always has a non-empty schedule, so the default 0 is
unreachable there.) -/
def secN (sz : List Nat) (i : Nat) : Nat :=
  if i < sz.length then sz.getD i 0 else sz.getLastD 0

/-- fm.py lines 331-341: the ideal track length in bit-cells before the
gap3 auto-fill, from the resolved gaps, sync/presync fields and payloads
(`gap_presync = 6`). -/
def fmTracklenBase (c : IBMTrackConfig) : Nat :=
  let gap_3 := c.gap3.getD 0
  let idx_sz := fmGap4a c +
    (match fmGap1 c with
     | some g1 => 6 + 1 + g1
     | none => 0)
  let idam_sz := 6 + 5 + 2 + fmGap2 c
  let dam_sz_pre := 6 + 1
  let dam_sz_post := 2 + gap_3
  16 * (idx_sz + (idam_sz + dam_sz_pre + dam_sz_post) * c.secs +
    (List.range c.secs).foldl (fun a i => a + (128 <<< secN c.sz i)) 0)

/-- fm.py line 347: the rate-implied maximum track length for candidate
`i` (0 = 125kbps, 1 = 250kbps), with the fixed 5000-bit-cell margin. -/
def fmMaxlen (rpm i : Nat) : Nat := ((50000 * 300 / rpm) <<< i) + 5000

/-- fm.py lines 343-350: the data-rate selection — an explicit non-zero
rate is used unchanged; at rate 0 the two-candidate loop breaks at the
first candidate that accommodates `tracklen`, and otherwise falls through
with the doubled rate. -/
def fmRate (rate rpm tracklen : Nat) : Nat :=
  if rate = 0 then
    if tracklen < fmMaxlen rpm 0 then 125 <<< 0 else 125 <<< 1
  else rate

/-! ### Claim C8 — data-rate auto-selection -/

/-- C8 counterexample: a finalisable config (256 sectors of 8192 bytes,
rate 0, rpm 300) whose track length exceeds both candidates' maxima still
gets rate 250 selected — the selected candidate's rate-implied maximum
does *not* accommodate the computed track length, refuting "selects the
smallest candidate whose rate-implied maximum track length accommodates
the computed track length" as stated. -/
theorem claim_C8_cex :
    fmRate 0 300
      (fmTracklenBase { mkIBMTrackConfig "ibm.fm" with
                          secs := 256, sz := [6] }) = 250 ∧
    fmMaxlen 300 1 ≤
      fmTracklenBase { mkIBMTrackConfig "ibm.fm" with
                         secs := 256, sz := [6] } :=
  ⟨by decide, by decide⟩

/-- C8 amended: with a non-zero configured rate that rate is used
unchanged; at rate 0 exactly the two candidates 125 and 250 are evaluated
and the base rate 125 is selected iff its rate-implied maximum (fixed
margin included) accommodates the computed track length — otherwise the
doubled rate 250 is selected, even when its maximum does not accommodate
the track length either. -/
theorem claim_C8_amended (rate rpm tracklen : Nat) :
    (rate ≠ 0 → fmRate rate rpm tracklen = rate) ∧
    (rate = 0 →
      (fmRate rate rpm tracklen = 125 ↔ tracklen < fmMaxlen rpm 0) ∧
      (fmRate rate rpm tracklen = 250 ↔ ¬tracklen < fmMaxlen rpm 0)) := by
  constructor
  · intro h
    simp [fmRate, h]
  · intro h
    subst h
    by_cases hfit : tracklen < fmMaxlen rpm 0
    · simp [fmRate, hfit]
    · simp [fmRate, hfit]

theorem claim_C8_witness :
    fmRate 0 300 10000 = 125 ∧ fmRate 500 300 10000 = 500 :=
  ⟨((claim_C8_amended 0 300 10000).2 rfl).1.mpr (by decide),
   (claim_C8_amended 500 300 10000).1 (by decide)⟩

/-! ### The formatted track (fm.py lines 199-366) -/

/-- The per-track state of `IBM_FM_Formatted` after `from_format`: the
copied scalar parameters, the resolved gaps, the final track length in
bit-cells (`time_per_rev / clock`), and the constructed area lists. -/
structure FMTrack where
  cyl : Nat
  head : Nat
  nsec : Nat
  id0 : Nat
  sz : List Nat
  interleave : Nat
  cskew : Nat
  hskew : Nat
  hid : Nat
  gap_1 : Option Nat
  gap_2 : Nat
  gap_3 : Nat
  gap_4a : Nat
  tracklenBc : Nat
  iams : List IAM
  sectors : List Sector
deriving DecidableEq, Repr

/-- fm.py line 300: the placeholder payload `b'-=[BAD SECTOR]=-'`
repeated `size // 16` times. -/
def badSectorData (size : Nat) : List Nat :=
  (List.replicate (size / 16)
    [45, 61, 91, 66, 65, 68, 32, 83, 69, 67, 84, 79, 82, 93, 61, 45]).flatten

/-- fm.py lines 291-302: lay out one sector at byte position `pos` in the
interleaved order. -/
def csEmit (t : FMTrack) (secMap : List Int) (st : Nat × List Sector)
    (i : Nat) : Nat × List Sector :=
  let sec := (secMap.getD i 0).toNat
  let pos := st.1 + 6
  let n := secN t.sz sec
  let idam : IDAM :=
    ⟨((pos * 16 : Nat) : Int), (((pos + 7) * 16 : Nat) : Int), 0xffff,
     t.cyl, t.hid, t.id0 + sec, n⟩
  let pos2 := pos + 7 + t.gap_2 + 6
  let size := 128 <<< n
  let dam : DAM :=
    ⟨((pos2 * 16 : Nat) : Int), (((pos2 + 1 + size + 2) * 16 : Nat) : Int),
     0xffff, 0xfb, badSectorData size⟩
  (pos2 + 1 + size + 2 + t.gap_3, st.2 ++ [mkSector idam dam])

/-- fm.py lines 273-302: `construct_sectors` — the interleaved slot map
(claim C2's `constructSecMap`), then the IAM (when gap1 exists) and each
sector at its provisional bit position. -/
def constructSectors (t : FMTrack) : FMTrack :=
  let secMap := constructSecMap t.nsec t.cyl t.head t.interleave t.cskew
    t.hskew
  let pos0 : Nat :=
    match t.gap_1 with
    | some g1 => t.gap_4a + 6 + 1 + g1
    | none => t.gap_4a
  let iams : List IAM :=
    match t.gap_1 with
    | some _ => [⟨(((t.gap_4a + 6) * 16 : Nat) : Int),
                  (((t.gap_4a + 6 + 1) * 16 : Nat) : Int)⟩]
    | none => []
  let fin := (List.range t.nsec).foldl (csEmit t secMap) (pos0, [])
  { t with iams := iams, sectors := fin.2 }

/-- fm.py line 203: the auto-gap3 default table, indexed by size code. -/
def GAP3tab : List Nat := [27, 42, 58, 138, 255, 255, 255, 255]

/-- fm.py lines 307-366: `from_format` — copies scalars, resolves gaps,
selects the data rate, auto-fills gap3 from the leftover bit budget, and
constructs the sector layout.  `tracklenBc` is the final
`max(tracklen_bc, tracklen)` from which the bit-cell clock is derived. -/
def fmFromFormat (c : IBMTrackConfig) (cyl head : Nat) : FMTrack :=
  let tracklen0 := fmTracklenBase c
  let rate := fmRate c.rate c.rpm tracklen0
  let tracklenBc0 := rate * 400 * 300 / c.rpm
  let g3t :=
    if c.secs ≠ 0 ∧ c.gap3 = none then
      let space := max 0 (tracklenBc0 - tracklen0)
      let g3 := min (space / (16 * c.secs)) (GAP3tab.getD (secN c.sz 0) 255)
      (g3, tracklen0 + 16 * c.secs * g3)
    else (c.gap3.getD 0, tracklen0)
  constructSectors
    { cyl := cyl, head := head, nsec := c.secs, id0 := c.id, sz := c.sz,
      interleave := c.interleave, cskew := c.cskew, hskew := c.hskew,
      hid := (match c.h with | none => head | some hh => hh),
      gap_1 := fmGap1 c, gap_2 := fmGap2 c, gap_3 := g3t.1,
      gap_4a := fmGap4a c, tracklenBc := max tracklenBc0 g3t.2,
      iams := [], sectors := [] }

/-! ### `raw_track` (fm.py lines 161-196) -/

inductive RawArea
  | iam : IAM → RawArea
  | sector : Sector → RawArea
deriving DecidableEq, Repr

/-- fm.py line 163: `heapq.merge(self.iams, self.sectors, key=start)` —
a stable merge of the two sorted lists, preferring the first on ties.
Fuel keeps the recursion structural. -/
def mergeAreasAux : Nat → List IAM → List Sector → List RawArea
  | 0, is, ss => is.map .iam ++ ss.map .sector
  | fuel + 1, is, ss =>
      match is, ss with
      | [], _ => ss.map .sector
      | _ :: _, [] => is.map .iam
      | i :: it, s :: st =>
          if i.start ≤ s.start then .iam i :: mergeAreasAux fuel it (s :: st)
          else .sector s :: mergeAreasAux fuel (i :: it) st

def mergeAreas (is : List IAM) (ss : List Sector) : List RawArea :=
  mergeAreasAux (is.length + ss.length) is ss

def encodeBytes (bs : List Nat) : List Nat :=
  (bs.map (fun b => [encByte b >>> 8, encByte b &&& 255])).flatten

def syncBytes (dat clk : Nat) : List Nat :=
  [syncWord dat clk >>> 8, syncWord dat clk &&& 255]

/-- fm.py lines 166-184: emit one area — filler gap up to the reserved
start, presync zeros, sync cell(s), and for a sector the ID and data
fields each followed by a freshly computed CRC. -/
def rawEmitArea (out : List Nat) : RawArea → List Nat
  | .iam ia =>
      let start : Int := ia.start / 16 - 6
      let gap : Nat := (start - ((out.length / 2 : Nat) : Int)).toNat
      out ++ encodeBytes (List.replicate gap 0xff) ++
        encodeBytes (List.replicate 6 0) ++ syncBytes 0xfc 0xd7
  | .sector s =>
      let start : Int := s.start / 16 - 6
      let gap : Nat := (start - ((out.length / 2 : Nat) : Int)).toNat
      let idamBytes := [0xfe, s.idam.c, s.idam.h, s.idam.r, s.idam.n]
      let crcv := crc16 idamBytes
      let out2 := out ++ encodeBytes (List.replicate gap 0xff) ++
        encodeBytes (List.replicate 6 0) ++ syncBytes 0xfe 0xc7 ++
        encodeBytes ([s.idam.c, s.idam.h, s.idam.r, s.idam.n] ++
          [(crcv >>> 8) &&& 255, crcv &&& 255])
      let dstart : Int := s.dam.start / 16 - 6
      let gap2 : Nat := (dstart - ((out2.length / 2 : Nat) : Int)).toNat
      let damBytes := s.dam.mark :: s.dam.data
      let crcd := crc16 damBytes
      out2 ++ encodeBytes (List.replicate gap2 0xff) ++
        encodeBytes (List.replicate 6 0) ++ syncBytes s.dam.mark 0xc7 ++
        encodeBytes (s.dam.data ++ [(crcd >>> 8) &&& 255, crcd &&& 255])

/-- fm.py lines 161-196: the serialized track as raw bytes.  The trailing
gap reaches the nominal length `tlen = int((time_per_rev/clock) // 16)`;
`time_per_rev / clock` is the float quotient `x / (x / tracklen_bc)`,
which equals `tracklen_bc` to within one part in 2^50, so its floor
division by 16 equals `tracklenBc / 16` whenever `tracklenBc` is not
within rounding distance of a multiple of 16 (true of every use below:
the concrete instance has `tracklenBc/16` fractional part 0.75). -/
def fmRawTrackBytes (t : FMTrack) : List Nat :=
  let out := (mergeAreas t.iams t.sectors).foldl rawEmitArea []
  let tlen := t.tracklenBc / 16
  let gap : Nat := (((tlen : Nat) : Int) - ((out.length / 2 : Nat) : Int)).toNat
  out ++ encodeBytes (List.replicate gap 0xff)

/-! ### Bit-level `decode_raw` (fm.py lines 75-158) -/

inductive AreaT
  | iam : IAM → AreaT
  | idam : IDAM → AreaT
  | dam : DAM → AreaT
  | sector : Sector → AreaT
deriving DecidableEq, Repr

def areaStart : AreaT → Int
  | .iam a => a.start
  | .idam a => a.start
  | .dam a => a.start
  | .sector a => a.start

/-- Modelled from the spec: `TrackArea.delta` of the missing `mfm.py` —
shifts an area's offsets (and a Sector's members') by the revolution
boundary (spec §4.3 step 6). -/
def areaDelta (p : Int) : AreaT → AreaT
  | .iam a => .iam ⟨a.start - p, a.stop - p⟩
  | .idam a => .idam { a with start := a.start - p, stop := a.stop - p }
  | .dam a => .dam { a with start := a.start - p, stop := a.stop - p }
  | .sector s => .sector
      { s with
          start := s.start - p,
          stop := s.stop - p,
          idam := { s.idam with start := s.idam.start - p,
                                stop := s.idam.stop - p },
          dam := { s.dam with start := s.dam.start - p,
                              stop := s.dam.stop - p } }

/-- fm.py lines 92-124: process one `sync_prefix` hit, threading the
pending IDAM.  `continue`d hits leave the state untouched; an isolated or
too-distant data mark becomes an inherently invalid `DAM` area (its
payload stays empty, like the Python default); a paired data mark forms a
`Sector` and clears the pending IDAM. -/
def procSyncHit (bits : Bits) (st : List AreaT × Option IDAM) (o : Nat) :
    List AreaT × Option IDAM :=
  let offs := o + 16
  if bits.len < offs + 16 then st
  else
    let mark := decodeWord (bslice bits offs (offs + 16))
    let clock := decodeWord (bslice bits (offs - 1) (offs + 15))
    if clock ≠ 0xc7 then st
    else if mark = 0xfe then
      let e := offs + 7 * 16
      if bits.len < e then st
      else
        let b := decodeBits (bslice bits offs e) 7
        let crc := crc16 b
        let newIdam : IDAM :=
          ⟨((offs : Nat) : Int), ((e : Nat) : Int), crc,
           b.getD 1 0, b.getD 2 0, b.getD 3 0, b.getD 4 0⟩
        match st.2 with
        | some prev => (st.1 ++ [.idam prev], some newIdam)
        | none => (st.1, some newIdam)
    else if mark = 0xfb ∨ mark = 0xf8 then
      match st.2 with
      | none =>
          (st.1 ++ [.dam ⟨((offs : Nat) : Int), ((offs + 4 * 16 : Nat) : Int),
            0xffff, mark, []⟩], none)
      | some prev =>
          if prev.stop - ((offs : Nat) : Int) > 1000 then
            (st.1 ++ [.dam ⟨((offs : Nat) : Int), ((offs + 4 * 16 : Nat) : Int),
              0xffff, mark, []⟩], none)
          else
            let size := 128 <<< prev.n
            let e := offs + (1 + size + 2) * 16
            if bits.len < e then st
            else
              let b := decodeBits (bslice bits offs e) (1 + size + 2)
              let crc := crc16 b
              let dam : DAM := ⟨((offs : Nat) : Int), ((e : Nat) : Int), crc,
                mark, (b.drop 1).take size⟩
              (st.1 ++ [.sector (mkSector prev dam)], none)
    else st

/-- Stable insertion sort by area start (Python `list.sort` is stable). -/
def insertArea (a : AreaT) : List AreaT → List AreaT
  | [] => [a]
  | b :: t => if areaStart b ≤ areaStart a then b :: insertArea a t
              else a :: b :: t

def sortAreas (l : List AreaT) : List AreaT :=
  l.foldl (fun acc a => insertArea a acc) []

/-- fm.py lines 131-140 on whole areas (claim C7 treats the same walk on
bare start offsets).  An empty revolution list would raise
`StopIteration` in Python; it cannot come from the hardware layer and is
modelled as the identity. -/
def revWalk (p : Nat) (n : Option Nat) (rest : List Nat) :
    List AreaT → List AreaT
  | [] => []
  | a :: rest2 =>
      match n with
      | none => areaDelta ((p : Nat) : Int) a :: revWalk p none rest rest2
      | some nv =>
          if areaStart a ≥ ((nv : Nat) : Int) then
            match rest with
            | [] => areaDelta ((nv : Nat) : Int) a :: revWalk nv none [] rest2
            | r :: rs => areaDelta ((nv : Nat) : Int) a ::
                revWalk nv (some (nv + r)) rs rest2
          else areaDelta ((p : Nat) : Int) a :: revWalk p (some nv) rest rest2

def applyRevDeltas (revolutions : List Nat) (areas : List AreaT) :
    List AreaT :=
  match revolutions with
  | [] => areas
  | r0 :: rest => revWalk 0 (some r0) rest areas

/-- fm.py lines 143-158: route each deduplicated area to its list (bare
IDAM/DAM areas are skipped). -/
def dedupAreas (l : List AreaT) : List IAM × List Sector :=
  l.foldl
    (fun st a =>
      match a with
      | .iam x => (dedupAddIam st.1 x, st.2)
      | .sector x => (st.1, dedupAdd st.2 x)
      | _ => st)
    ([], [])

/-- fm.py lines 75-158: `IBM_FM.decode_raw` over an already-recovered
bitstream with its revolution lengths (the flux/PLL layer is the excluded
hardware boundary, spec §1/§6): find all index-mark and generic sync hits,
parse ID/data fields with their CRCs, convert offsets to
revolution-relative, and deduplicate. -/
def decodeRawAreas (bits : Bits) (revolutions : List Nat) :
    List IAM × List Sector :=
  let iamAreas := (searchAll bits iamSyncPat).map
    (fun o => AreaT.iam ⟨((o + 16 : Nat) : Int), ((o + 32 : Nat) : Int)⟩)
  let st := (searchAll bits syncPfxPat).foldl (procSyncHit bits)
    (iamAreas, none)
  let areas :=
    match st.2 with
    | some prev => st.1 ++ [.idam prev]
    | none => st.1
  dedupAreas (sortAreas (applyRevDeltas revolutions (sortAreas areas)))

/-- fm.py lines 258-271 with the real bit-level decode: `verify_track`
on a captured readback bitstream. -/
def fmVerifyTrack (t : FMTrack) (bits : Bits) (revolutions : List Nat) :
    Bool :=
  verifyTrackWith t.sectors (decodeRawAreas bits revolutions).2

/-! ### `set_img_track` (fm.py lines 235-248) -/

def insertByR (a : Sector) : List Sector → List Sector
  | [] => [a]
  | b :: t => if b.idam.r ≤ a.idam.r then b :: insertByR a t else a :: b :: t

/-- Python stable sort by `idam.r`. -/
def sortByR (l : List Sector) : List Sector :=
  l.foldl (fun acc a => insertByR a acc) []

def insertByStart (a : Sector) : List Sector → List Sector
  | [] => [a]
  | b :: t => if b.start ≤ a.start then b :: insertByStart a t
              else a :: b :: t

/-- Python stable sort by `start`. -/
def sortByStart (l : List Sector) : List Sector :=
  l.foldl (fun acc a => insertByStart a acc) []

/-- fm.py lines 235-248: `set_img_track` — install the flat image buffer
(zero-padded to the total size) into the sectors in sector-id order,
zeroing all checksums, then restore rotational order. -/
def setImgTrack (t : FMTrack) (tdat : List Nat) : FMTrack :=
  let sorted := sortByR t.sectors
  let totsize := sorted.foldl (fun x y => x + (128 <<< y.idam.n)) 0
  let tdat2 := if tdat.length < totsize then
    tdat ++ List.replicate (totsize - tdat.length) 0 else tdat
  let upd := sorted.foldl
    (fun (st : Nat × List Sector) s =>
      let size := 128 <<< s.idam.n
      (st.1 + size,
       st.2 ++ [{ s with
                    crc := 0,
                    idam := { s.idam with crc := 0 },
                    dam := { s.dam with
                               crc := 0,
                               data := (tdat2.drop st.1).take size } }]))
    (0, [])
  { t with sectors := sortByStart upd.2 }

/-! ### Claim C1 — the formatted-track round trip -/

/-- The concrete finalized formatted track of claim C1's failing input:
one 128-byte sector, no IAM, 2000 rpm (auto rate resolves to 125kbps,
7500 bit-cells per revolution, auto gap3 = 27). -/
def c1Config : IBMTrackConfig :=
  { mkIBMTrackConfig "ibm.fm" with
      secs := 1, sz := [0], iam := false, rpm := 2000, finalised := true }

def c1Track : FMTrack := fmFromFormat c1Config 0 0

/-- The exact bitstream `raw_track()` emits for that track, fed back as a
noiseless one-revolution readback. -/
def c1Bits : Bits := bitsOfBytes (fmRawTrackBytes c1Track)

def c1Decoded : List IAM × List Sector := decodeRawAreas c1Bits [c1Bits.len]

/-- The same track after `set_img_track` installs a payload (zeroing the
sector checksums, as the write path does before verification). -/
def c1ImgTrack : FMTrack :=
  setImgTrack c1Track ((List.range 128).map (fun i => i % 251))

def c1ImgBits : Bits := bitsOfBytes (fmRawTrackBytes c1ImgTrack)

set_option maxHeartbeats 4000000 in
set_option maxRecDepth 8000 in
/-- C1, settled at the failing input: decoding `raw_track()` through a
one-revolution `decode_raw` reproduces the sector IDs and payloads exactly
and leaves no sector missing — but `verify_track` on that perfect readback
returns `false` for the freshly formatted track, because the template's
sector checksums still hold the 0xffff sentinel that `from_format`
installed while a successful readback clears them to 0, and the strict
area-for-area comparison includes the checksum fields.  Once the sector
checksums are zeroed by `set_img_track` (the write path always does this
before a write-verify), the very same round trip makes `verify_track`
return `true`. -/
theorem claim_C1_roundtrip_failing_input :
    c1Decoded.2.map (fun s => (s.idam.c, s.idam.h, s.idam.r, s.idam.n,
      s.dam.data)) =
      c1Track.sectors.map (fun s => (s.idam.c, s.idam.h, s.idam.r,
        s.idam.n, s.dam.data)) ∧
    nrMissing c1Decoded.2 = 0 ∧
    fmVerifyTrack c1Track c1Bits [c1Bits.len] = false ∧
    fmVerifyTrack c1ImgTrack c1ImgBits [c1ImgBits.len] = true :=
  ⟨rfl, rfl, rfl, rfl⟩

end GW
